import Mathlib

/-!
Verification development for the structural-parser / chunk-assembly core of the
manual-chatbot pipeline (src/pipeline/structural_parser.py and
src/pipeline/chunk_assembly.py).

Text model.  The Python code manipulates strings, but every decision made by
the functions under study happens at paragraph / line / word granularity:
lines are obtained by `split("\n")`, words by `split()` (whitespace runs),
blankness by `strip()`, token counts by word counts, and all regular
expressions are applied to a whitespace-stripped line.  We therefore embed a
line as its list of whitespace-separated words (`Line := List String`) and a
text block as its list of lines (`DocText := List Line`).  A whitespace-only
line and an empty line are both `[]` (they are indistinguishable to every
operation the embedded functions perform: word counting, blankness tests,
pattern matching on the stripped line).  Joining two blocks with "\n\n"
inserts exactly one blank line, i.e. `a ++ [[]] ++ b`; joining with "\n" is
`a ++ b`.  Regular expressions from the externally supplied profile are
embedded as abstract matchers on stripped lines:
  * `Line → Bool` for patterns only tested for a match,
  * `Line → Option String` for patterns whose first capture group is read
    (a `some v` means "the pattern matches and group 1 captured `v`"),
  * `Line → Option (Option String)` for the hierarchy patterns, where the
    outer option is "does the pattern match" and the inner option is the
    (possibly absent) group-1 capture,
  * `Line → List String` for the figure pattern, giving the extracted
    identifier of every match in the line, in order.
-/

set_option maxRecDepth 10000

namespace ManualPipeline

abbrev Line := List String

abbrev DocText := List Line

/-- `count_tokens` from chunk_assembly.py: with `TOKEN_ESTIMATE_FACTOR = 1.0`,
`int(len(text.split()) * 1.0)` is exactly the number of whitespace-separated
words (and the blank-text early return also yields 0 words). -/
def count_tokens (t : DocText) : Nat :=
  (t.map List.length).sum

/-- Total word count of a list of text blocks. -/
def totalTokens (ts : List DocText) : Nat :=
  (ts.map count_tokens).sum

/-- Blank line test: `line.strip() == ""` holds iff the line has no words. -/
def lineBlank (l : Line) : Bool :=
  l.isEmpty

/-- Python `str.strip()` on a multi-line text: removes leading and trailing
whitespace, i.e. drops leading and trailing blank lines (edge spaces inside
the surviving first/last line carry no words and are invisible here). -/
def stripText (t : DocText) : DocText :=
  ((t.dropWhile lineBlank).reverse.dropWhile lineBlank).reverse

/-- Python truthiness of the rendered string.  "" is falsy; every string the
accumulator of `_split_oversized` can hold is either "" or a stripped string,
and a stripped string is truthy iff it contains a word. -/
def strTruthy (t : DocText) : Bool :=
  !(stripText t).isEmpty

/-- Python slice `xs[a:b]` for natural indices. -/
def slice (xs : List α) (a b : Nat) : List α :=
  (xs.drop a).take (b - a)

/-- Words of a span of lines: `sum(len(line.split()) for line in span)`. -/
def spanWords (lines : List Line) : Nat :=
  (lines.map List.length).sum

/-- Python `str.isupper()` of a stripped line, restricted to ASCII casing:
at least one cased character and no lowercase character. -/
def lineIsUpper (l : Line) : Bool :=
  l.any (fun w => w.toList.any Char.isAlpha) &&
    l.all (fun w => w.toList.all (fun c => !c.isLower))

/-- Does a word contain a run of three or more dots (the `\.{3,}` leader-dot
heuristic)?  A dot run never contains whitespace, so it lies inside a word. -/
def dotRun3 : List Char → Bool
  | '.' :: '.' :: '.' :: _ => true
  | _ :: rest => dotRun3 rest
  | [] => false

/-- `dot_leader_pat.search(stripped)` from `detect_tables`. -/
def lineHasDotLeader (l : Line) : Bool :=
  l.any (fun w => dotRun3 w.toList)

/-- Is a word exactly `(` digits `)` — the shape required for the hardcoded
`^\(\d+\)\s` step test (the `\s` forces the parenthesised number to be a
complete word followed by more content). -/
def parenDigitsWord (w : String) : Bool :=
  match w.toList with
  | '(' :: rest =>
    match rest.reverse with
    | ')' :: mid => !mid.isEmpty && mid.all Char.isDigit
    | _ => false
  | _ => false

/-- Is a word exactly one lowercase letter followed by `.` — the shape
required for the hardcoded `^[a-z]\.\s` step test. -/
def alphaDotWord (w : String) : Bool :=
  match w.toList with
  | [c, '.'] => c.isLower && c.isAlpha
  | _ => false

/-- The two hardcoded step-start regexes used inside `detect_safety_callouts`:
`re.match(r'^\(\d+\)\s', s)` or `re.match(r'^[a-z]\.\s', s)`.  Both demand a
whitespace character after the marker, hence at least a second word. -/
def hardStepLine (l : Line) : Bool :=
  match l with
  | w :: _ :: _ => parenDigitsWord w || alphaDotWord w
  | _ => false

/-- Python `str.isdigit()` (ASCII digits). -/
def strIsDigit (s : String) : Bool :=
  !s.isEmpty && s.toList.all Char.isDigit

/-- Python `str.isalpha()` (ASCII letters). -/
def strIsAlpha (s : String) : Bool :=
  !s.isEmpty && s.toList.all Char.isAlpha

/-- `int(s)` for a digit string. -/
def strToNat (s : String) : Nat :=
  s.toList.foldl (fun a c => a * 10 + (c.toNat - 48)) 0

/-- Stable insertion of an element into a list: before the first element it
compares `le` to. -/
def orderedInsertB (le : α → α → Bool) (a : α) : List α → List α
  | [] => [a]
  | b :: l => if le a b then a :: b :: l else b :: orderedInsertB le a l

/-- Stable insertion sort (the embedding of Python's stable `sort`/`sorted`;
all our sort keys are distinct, so any correct sort has the same result). -/
def sortByB (le : α → α → Bool) (l : List α) : List α :=
  l.foldr (orderedInsertB le) []

/-- Python `a or b` for optional strings where an empty string is falsy:
used for `boundary.title or ""` and `boundary.title or boundary.id or ""`. -/
def orStr (a : Option String) (d : String) : String :=
  match a with
  | some s => if s = "" then d else s
  | none => d

/-!  Profile data model (profile.py, plus the per-level filter fields that
`filter_boundaries` reads from each hierarchy level and that the test suite
configures).  `known_ids` holds the id strings (the Python code only ever
reads `entry["id"]` of each allow-list element). -/

structure HierarchyLevel where
  level : Nat
  name : String
  id_pattern : Option (Line → Option (Option String))
  title_pattern : Option (Line → Option (Option String))
  known_ids : List String
  require_known_id : Bool
  min_gap_lines : Nat
  min_content_words : Nat
  require_blank_before : Bool

structure SafetyCallout where
  level : String
  pattern : Line → Bool

structure ManualProfile where
  manual_id : String
  manual_title : String
  /-- The vehicle model names (`[v.model for v in profile.vehicles]`). -/
  vehicles : List String
  hierarchy : List HierarchyLevel
  step_patterns : List (Line → Option String)
  figure_reference_pattern : Option (Line → List String)
  cross_reference_patterns : List (Line → Bool)
  safety_callouts : List SafetyCallout

/-!  structural_parser.py data model. -/

structure Boundary where
  level : Nat
  level_name : String
  id : Option String
  title : Option String
  page_number : Nat
  line_number : Nat
deriving DecidableEq, Repr

structure PageRange where
  start : String
  ending : String
deriving DecidableEq, Repr

structure LineRange where
  start : Nat
  ending : Nat
deriving DecidableEq, Repr

structure ManifestEntry where
  chunk_id : String
  level : Nat
  level_name : String
  title : String
  hierarchy_path : List String
  content_type : String
  page_range : PageRange
  line_range : LineRange
  vehicle_applicability : List String
  engine_applicability : List String
  drivetrain_applicability : List String
  has_safety_callouts : List String
  figure_references : List String
  cross_references : List String
  parent_chunk_id : Option String
  children : List String
deriving DecidableEq, Repr

instance : Inhabited ManifestEntry :=
  ⟨⟨"", 0, "", "", [], "", ⟨"", ""⟩, ⟨0, 0⟩, [], [], [], [], [], [], none, []⟩⟩

structure Manifest where
  manual_id : String
  entries : List ManifestEntry

/-!  detect_boundaries.  For each non-blank line every hierarchy level's two
patterns are evaluated against the stripped line; a level matches when either
pattern matches.  Ambiguity is resolved against the current deepest open
level, which starts at 0 and is set to the chosen level after every emitted
boundary. -/

/-- One collected match `(level, name, id_group, title_group)` for a line. -/
structure LineMatch where
  level : Nat
  name : String
  bid : Option String
  btitle : Option String
deriving DecidableEq, Repr

/-- All hierarchy levels matching a (stripped, non-blank) line, in profile
order, with their extracted group-1 captures. -/
def lineMatches (levels : List HierarchyLevel) (l : Line) : List LineMatch :=
  levels.filterMap fun h =>
    let idRes : Option (Option String) :=
      match h.id_pattern with
      | some p => p l
      | none => none
    let titleRes : Option (Option String) :=
      match h.title_pattern with
      | some p => p l
      | none => none
    if idRes.isSome || titleRes.isSome then
      some ⟨h.level, h.name, idRes.getD none, titleRes.getD none⟩
    else
      none

/-- The disambiguation of detect_boundaries: a single match is used directly;
otherwise the first (shallowest, for a level-sorted profile) match deeper
than the current open level, falling back to the first match overall. -/
def chooseMatch (cur : Nat) : List LineMatch → Option LineMatch
  | [] => none
  | [m] => some m
  | m :: ms =>
    match (m :: ms).filter (fun x => cur < x.level) with
    | [] => some m
    | d :: _ => some d

/-- Process one line of a page: skip blank and matchless lines, otherwise
emit one boundary and set the open level to the chosen level. -/
def scanLineStep (levels : List HierarchyLevel) (pageIdx lineNo : Nat)
    (st : Nat × List Boundary) (l : Line) : Nat × List Boundary :=
  if lineBlank l then st
  else
    match chooseMatch st.1 (lineMatches levels l) with
    | none => st
    | some c =>
      (c.level, st.2 ++ [⟨c.level, c.name, c.bid, c.btitle, pageIdx, lineNo⟩])

/-- Scan the lines of one page, threading the open level and the global line
offset. -/
def scanPageLines (levels : List HierarchyLevel) (pageIdx offset : Nat) :
    Nat → (Nat × List Boundary) → List Line → Nat × List Boundary
  | _, st, [] => st
  | lineIdx, st, l :: rest =>
    scanPageLines levels pageIdx offset (lineIdx + 1)
      (scanLineStep levels pageIdx (offset + lineIdx) st l) rest

/-- Scan all pages, accumulating the global line offset. -/
def scanPages (levels : List HierarchyLevel) :
    Nat → Nat → (Nat × List Boundary) → List DocText → Nat × List Boundary
  | _, _, st, [] => st
  | pageIdx, offset, st, page :: rest =>
    scanPages levels (pageIdx + 1) (offset + page.length)
      (scanPageLines levels pageIdx offset 0 st page) rest

/-- Ordering used by the final safety-net sort of detect_boundaries. -/
def boundaryLE (a b : Boundary) : Bool :=
  a.page_number < b.page_number ||
    (a.page_number = b.page_number && a.line_number ≤ b.line_number)

/-- detect_boundaries: scan every page starting with open level 0, then
stable-sort by (page, global line). -/
def detect_boundaries (pages : List DocText) (profile : ManualProfile) :
    List Boundary :=
  sortByB boundaryLE (scanPages profile.hierarchy 0 0 (0, []) pages).2

/-!  filter_boundaries: four passes (known id, blank line before, minimum
gap, minimum content words).  `level_config` is a dict built by iterating the
hierarchy, so a duplicated level number resolves to the last entry. -/

/-- `level_config.get(b.level)`: the last hierarchy entry with this level. -/
def levelConfig (profile : ManualProfile) (lvl : Nat) : Option HierarchyLevel :=
  profile.hierarchy.reverse.find? (fun h => h.level = lvl)

/-- The known-id allow list for a level, present only when the level has
`require_known_id` and a non-empty allow list (dict semantics: last wins). -/
def knownIdSet (profile : ManualProfile) (lvl : Nat) : Option (List String) :=
  match profile.hierarchy.reverse.find?
      (fun h => h.level = lvl && h.require_known_id && !h.known_ids.isEmpty) with
  | some h => some h.known_ids
  | none => none

/-- Pass 0 keep-predicate. -/
def pass0Keep (profile : ManualProfile) (b : Boundary) : Bool :=
  match knownIdSet profile b.level with
  | none => true
  | some s =>
    match b.id with
    | none => false
    | some i => s.contains i

/-- Pass 0: known-id gate (skipped entirely when no level enables it). -/
def pass0 (profile : ManualProfile) (bs : List Boundary) : List Boundary :=
  if profile.hierarchy.any (fun h => h.require_known_id && !h.known_ids.isEmpty) then
    bs.filter (pass0Keep profile)
  else
    bs

/-- Pass 1 keep-predicate: a level with `require_blank_before` drops a
boundary at global line 0 and any boundary whose preceding global line is not
blank (an out-of-range line index reads as the empty string, hence blank). -/
def pass1Keep (profile : ManualProfile) (allLines : List Line) (total : Nat)
    (b : Boundary) : Bool :=
  match levelConfig profile b.level with
  | some cfg =>
    if cfg.require_blank_before then
      if b.line_number = 0 then false
      else
        let preceding : Line :=
          if b.line_number < total then allLines.getD (b.line_number - 1) [] else []
        lineBlank preceding
    else true
  | none => true

/-- Pass 1: blank-line-before gate. -/
def pass1 (profile : ManualProfile) (allLines : List Line) (total : Nat)
    (bs : List Boundary) : List Boundary :=
  bs.filter (pass1Keep profile allLines total)

/-- Does some hierarchy entry give this level a positive minimum gap? -/
def hasGapLevel (profile : ManualProfile) (lvl : Nat) : Bool :=
  profile.hierarchy.any (fun h => h.level = lvl && 0 < h.min_gap_lines)

/-- The configured minimum gap of a level (via the `level_config` dict). -/
def gapThreshold (profile : ManualProfile) (lvl : Nat) : Nat :=
  match levelConfig profile lvl with
  | some cfg => cfg.min_gap_lines
  | none => 0

/-- Pass 2 core loop: per level with a positive minimum gap, track the line
of the last kept same-level boundary and drop a boundary whose distance from
it is below the threshold. -/
def pass2Go (profile : ManualProfile) (st : Nat → Option Nat) :
    List Boundary → List Boundary
  | [] => []
  | b :: rest =>
    if hasGapLevel profile b.level then
      match st b.level with
      | some last =>
        if (b.line_number : Int) - (last : Int) < (gapThreshold profile b.level : Int) then
          pass2Go profile st rest
        else
          b :: pass2Go profile
            (fun l => if l = b.level then some b.line_number else st l) rest
      | none =>
        b :: pass2Go profile
          (fun l => if l = b.level then some b.line_number else st l) rest
    else
      b :: pass2Go profile st rest

/-- Pass 2: minimum gap (skipped entirely when no level enables it). -/
def pass2 (profile : ManualProfile) (bs : List Boundary) : List Boundary :=
  if profile.hierarchy.any (fun h => 0 < h.min_gap_lines) then
    pass2Go profile (fun _ => none) bs
  else
    bs

/-- Does some hierarchy entry give this level a positive content minimum? -/
def hasMinWordsLevel (profile : ManualProfile) (lvl : Nat) : Bool :=
  profile.hierarchy.any (fun h => h.level = lvl && 0 < h.min_content_words)

/-- The configured content minimum of a level (via the `level_config` dict). -/
def minWordsThreshold (profile : ManualProfile) (lvl : Nat) : Nat :=
  match levelConfig profile lvl with
  | some cfg => cfg.min_content_words
  | none => 0

/-- Pass 3 keep-predicate, given the end line of this boundary's span (the
next boundary of the pass-3 input, or the document end). -/
def pass3Keep (profile : ManualProfile) (allLines : List Line)
    (b : Boundary) (endLine : Nat) : Bool :=
  if hasMinWordsLevel profile b.level then
    minWordsThreshold profile b.level ≤
      spanWords (slice allLines b.line_number endLine)
  else true

/-- Pass 3 core loop: each boundary's span ends at the next boundary of the
input sequence being traversed (not of the pass output). -/
def pass3Go (profile : ManualProfile) (allLines : List Line) (total : Nat) :
    List Boundary → List Boundary
  | [] => []
  | b :: rest =>
    let endLine :=
      match rest.head? with
      | some nb => nb.line_number
      | none => total
    if pass3Keep profile allLines b endLine then
      b :: pass3Go profile allLines total rest
    else
      pass3Go profile allLines total rest

/-- Pass 3: minimum content words (skipped entirely when no level enables
it). -/
def pass3 (profile : ManualProfile) (allLines : List Line) (total : Nat)
    (bs : List Boundary) : List Boundary :=
  if profile.hierarchy.any (fun h => 0 < h.min_content_words) then
    pass3Go profile allLines total bs
  else
    bs

/-- The concatenated page line list `"\n".join(pages).split("\n")`. -/
def joinPages (pages : List DocText) : List Line :=
  pages.flatten

/-- filter_boundaries: passes 0 → 1 → 2 → 3 in order. -/
def filter_boundaries (bs : List Boundary) (profile : ManualProfile)
    (pages : List DocText) : List Boundary :=
  if bs.isEmpty then []
  else
    let allLines := joinPages pages
    let total := allLines.length
    pass3 profile allLines total
      (pass2 profile
        (pass1 profile allLines total
          (pass0 profile bs)))

/-!  build_manifest.  The ancestor dict `current_ancestors` is embedded as an
association list in insertion order (which, for states reachable from the
empty dict, is strictly increasing in level); `sorted(keys)` is taken
explicitly, matching the Python code. -/

structure AncEntry where
  level : Nat
  aid : String
  atitle : String
  idx : Nat
deriving DecidableEq, Repr

/-- `generate_chunk_id`. -/
def generate_chunk_id (manualId : String) (hierarchyIds : List String) : String :=
  if hierarchyIds.isEmpty then manualId
  else String.intercalate "::" (manualId :: hierarchyIds)

/-- Ancestor-id path of the parent: every sorted ancestor id up to and
including the first one at the parent level. -/
def takeUpToLevel (target : Nat) : List AncEntry → List String
  | [] => []
  | a :: rest =>
    if a.level = target then [a.aid] else a.aid :: takeUpToLevel target rest

/-- Append a child id to the first entry with the given chunk id. -/
def addChildToFirst (pid newChild : String) :
    List ManifestEntry → List ManifestEntry
  | [] => []
  | e :: rest =>
    if e.chunk_id = pid then
      { e with children := e.children ++ [newChild] } :: rest
    else
      e :: addChildToFirst pid newChild rest

/-- Sort ancestors by level (`sorted(current_ancestors.keys())`). -/
def sortAnc (anc : List AncEntry) : List AncEntry :=
  sortByB (fun a b => a.level ≤ b.level) anc

/-- One step of build_manifest: close ancestors at level ≥ L, build the id
and title paths, emit the entry, record it as the open ancestor at L, and
append its id to the first entry matching the parent chunk id. -/
def manifestStep (manualId : String) (vehicleNames : List String)
    (st : List AncEntry × List ManifestEntry) (b : Boundary) :
    List AncEntry × List ManifestEntry :=
  let anc := st.1
  let entries := st.2
  let bid : String := b.id.getD (orStr b.title "")
  let btitle : String := orStr b.title (orStr b.id "")
  let anc' := anc.filter (fun a => a.level < b.level)
  let sortedAnc := sortAnc anc'
  let hierarchyIds := sortedAnc.map (·.aid) ++ [bid]
  let hierarchyPath := sortedAnc.map (·.atitle) ++ [btitle]
  let chunkId := generate_chunk_id manualId hierarchyIds
  let parentId : Option String :=
    match sortedAnc.getLast? with
    | none => none
    | some last =>
      some (generate_chunk_id manualId (takeUpToLevel last.level sortedAnc))
  let entry : ManifestEntry :=
    { chunk_id := chunkId
      level := b.level
      level_name := b.level_name
      title := btitle
      hierarchy_path := hierarchyPath
      content_type := b.level_name
      page_range := ⟨toString b.page_number, toString b.page_number⟩
      line_range := ⟨b.line_number, b.line_number⟩
      vehicle_applicability := vehicleNames
      engine_applicability := ["all"]
      drivetrain_applicability := ["all"]
      has_safety_callouts := []
      figure_references := []
      cross_references := []
      parent_chunk_id := parentId
      children := [] }
  let entries1 := entries ++ [entry]
  let entries2 :=
    match parentId with
    | some pid => addChildToFirst pid chunkId entries1
    | none => entries1
  (anc' ++ [⟨b.level, bid, btitle, entries.length⟩], entries2)

/-- build_manifest: fold the step over the boundary list. -/
def build_manifest (boundaries : List Boundary) (profile : ManualProfile) :
    Manifest :=
  ⟨profile.manual_id,
    (boundaries.foldl (manifestStep profile.manual_id profile.vehicles) ([], [])).2⟩

/-!  chunk_assembly.py.  A text fragment is a `DocText`; joining fragments
with `"\n\n"` is `a ++ [[]] ++ b` and with `"\n"` is `a ++ b`. -/

structure Chunk where
  chunk_id : String
  manual_id : String
  text : DocText
  metadata : List (String × String)
deriving DecidableEq, Repr

/-!  detect_step_sequences. -/

/-- Line indices matching any step pattern. -/
def stepLineIdxs (pats : List (Line → Option String)) (lines : DocText) :
    List Nat :=
  (lines.enum.filter (fun p => pats.any (fun pat => (pat p.2).isSome))).map (·.1)

/-- The restart test between the previous and current step line: the first
pattern matching both lines decides; a numeric capture restarts at value 1
not exceeding the previous, an alphabetic capture restarts at "a" not
exceeding the previous. -/
def stepRestarts (pats : List (Line → Option String)) (lines : DocText)
    (prevIdx curIdx : Nat) : Bool :=
  let prevLine := lines.getD prevIdx []
  let curLine := lines.getD curIdx []
  match pats.find? (fun pat => (pat curLine).isSome && (pat prevLine).isSome) with
  | none => false
  | some pat =>
    let cv := (pat curLine).getD ""
    let pv := (pat prevLine).getD ""
    if strIsDigit cv && strIsDigit pv then
      decide (strToNat cv ≤ strToNat pv) && decide (strToNat cv = 1)
    else if strIsAlpha cv && strIsAlpha pv then
      decide (cv ≤ pv) && decide (cv = "a")
    else
      false

/-- Group consecutive step lines: a new sequence starts only when the
numbering restarts and the two step lines are more than one line apart. -/
def groupSteps (pats : List (Line → Option String)) (lines : DocText)
    (seqStart seqEnd : Nat) : List Nat → List (Nat × Nat)
  | [] => [(seqStart, seqEnd)]
  | cur :: rest =>
    if stepRestarts pats lines seqEnd cur && 1 < cur - seqEnd then
      (seqStart, seqEnd) :: groupSteps pats lines cur cur rest
    else
      groupSteps pats lines seqStart cur rest

/-- detect_step_sequences. -/
def detect_step_sequences (text : DocText)
    (pats : List (Line → Option String)) : List (Nat × Nat) :=
  match stepLineIdxs pats text with
  | [] => []
  | s :: rest => groupSteps pats text s s rest

/-!  Rules R1 and R3. -/

/-- R1: the entry's whole span, dropped when blank. -/
def apply_rule_r1_primary_unit (text : DocText) : List DocText :=
  if (stripText text).isEmpty then [] else [text]

/-- Pair ordering used by `sorted(sequences)`. -/
def pairLE (a b : Nat × Nat) : Bool :=
  a.1 < b.1 || (a.1 = b.1 && a.2 ≤ b.2)

/-- R3 slicing loop: non-step text before each protected range and the range
itself become fragments (blank pieces are dropped), then the remainder. -/
def r3Slices (lines : DocText) (curPos : Nat) : List (Nat × Nat) → List DocText
  | [] =>
    let after := stripText (lines.drop curPos)
    if after.isEmpty then [] else [after]
  | (s, e) :: rest =>
    let before := stripText (slice lines curPos s)
    let stepText := stripText (slice lines s (e + 1))
    (if before.isEmpty then [] else [before]) ++
      (if stepText.isEmpty then [] else [stepText]) ++
      r3Slices lines (e + 1) rest

/-- R3: protect each detected step sequence in its own fragment. -/
def apply_rule_r3_never_split_steps (text : DocText)
    (pats : List (Line → Option String)) : List DocText :=
  let seqs := detect_step_sequences text pats
  if seqs.isEmpty then [text]
  else
    let chunks := r3Slices text 0 (sortByB pairLE seqs)
    if chunks.isEmpty then [text] else chunks

/-!  detect_safety_callouts and rule R4. -/

structure CalloutHit where
  level : String
  start_line : Nat
  end_line : Nat
deriving DecidableEq, Repr

/-- Extend a callout from its start line forward until a blank line, another
callout line, or a hardcoded step line; `e` is the extent so far and `j` the
index of the next candidate line. -/
def calloutExtent (pats : List (Line → Bool)) : Nat → Nat → DocText → Nat
  | e, _, [] => e
  | e, j, l :: rest =>
    if lineBlank l || pats.any (fun p => p l) || hardStepLine l then e
    else calloutExtent pats j (j + 1) rest

/-- detect_safety_callouts: for each configured callout pattern in order,
every matching line opens a callout whose extent runs forward. -/
def detect_safety_callouts (text : DocText) (profile : ManualProfile) :
    List CalloutHit :=
  let pats := profile.safety_callouts.map (·.pattern)
  (profile.safety_callouts.map fun sc =>
    text.enum.filterMap fun p =>
      if sc.pattern p.2 then
        some ⟨sc.level, p.1, calloutExtent pats p.1 (p.1 + 1) (text.drop (p.1 + 1))⟩
      else
        none).flatten

/-- The R4 merge test: the chunk has a callout and, in the stripped chunk,
every line not covered by a detected callout range is blank.  The callout
ranges are computed on the unstripped chunk while the residual-line check
runs over `chunk.strip().split("\n")`, exactly as in the Python code. -/
def r4MergeCond (profile : ManualProfile) (c : DocText) : Bool :=
  let callouts := detect_safety_callouts c profile
  if callouts.isEmpty then false
  else
    let lines := stripText c
    let hasProcedure :=
      (List.range lines.length).any fun ln =>
        !(callouts.any fun co => co.start_line ≤ ln && ln ≤ co.end_line) &&
          !lineBlank (lines.getD ln [])
    !hasProcedure

/-- R4: merge a callout-only chunk forward into the next chunk; a merged
pair is emitted and not re-examined. -/
def apply_rule_r4_safety_attachment (profile : ManualProfile) :
    List DocText → List DocText
  | [] => []
  | [c] => [c]
  | c :: d :: rest =>
    if r4MergeCond profile c then
      (c ++ [[]] ++ d) :: apply_rule_r4_safety_attachment profile rest
    else
      c :: apply_rule_r4_safety_attachment profile (d :: rest)

/-!  detect_tables and rule R5. -/

/-- Include the line right before a table start when it is a non-blank
non-leader line (a probable header). -/
def headerAdjust (lines : DocText) (s : Nat) : Nat :=
  if 0 < s then
    let prev := lines.getD (s - 1) []
    if !lineBlank prev && !lineHasDotLeader prev then s - 1 else s
  else s

/-- Group contiguous dot-leader lines (gaps of up to 3 lines allowed),
adjusting each group start for a header line. -/
def tablesGo (lines : DocText) (seqStart seqEnd : Nat) :
    List Nat → List (Nat × Nat)
  | [] => [(seqStart, seqEnd)]
  | cur :: rest =>
    if cur - seqEnd ≤ 3 then tablesGo lines seqStart cur rest
    else (seqStart, seqEnd) :: tablesGo lines (headerAdjust lines cur) cur rest

/-- detect_tables. -/
def detect_tables (text : DocText) : List (Nat × Nat) :=
  let tableLines :=
    (text.enum.filter (fun p => !lineBlank p.2 && lineHasDotLeader p.2)).map (·.1)
  match tableLines with
  | [] => []
  | t :: rest => tablesGo text (headerAdjust text t) t rest

/-- Signal 1 of R5: the chunk's last detected table reaches (within one
line) its last non-blank line. -/
def endsWithTable (c : DocText) : Bool :=
  match (detect_tables c).getLast? with
  | none => false
  | some tbl =>
    let trailingBlanks := (c.reverse.takeWhile lineBlank).length
    let nonBlankEnd := c.length - 1 - trailingBlanks
    nonBlankEnd - 1 ≤ tbl.2

/-- Signal 2 of R5: the chunk's first detected table starts within one line
of its first non-blank line. -/
def startsWithTable (c : DocText) : Bool :=
  match (detect_tables c).head? with
  | none => false
  | some tbl =>
    let firstNonBlank := (c.takeWhile lineBlank).length
    tbl.1 ≤ firstNonBlank + 1

/-- R5 loop, fueled by the list length (each step strictly shrinks the
list, so the fuel never runs out). -/
def r5Go : Nat → List DocText → List DocText
  | 0, cs => cs
  | _ + 1, [] => []
  | _ + 1, [c] => [c]
  | fuel + 1, c :: d :: rest =>
    if endsWithTable c && startsWithTable d then
      r5Go fuel ((c ++ d) :: rest)
    else
      c :: r5Go fuel (d :: rest)

/-- R5: re-merge adjacent chunks when a table was split across them (the
merged chunk is re-examined, so three-way splits reassemble). -/
def apply_rule_r5_table_integrity (chunks : List DocText) : List DocText :=
  r5Go chunks.length chunks

/-!  Rule R2: size targets, with the paragraph / line / word splitting
helpers `_split_oversized` and `_split_by_sentences`.

Paragraph splitting embeds `re.split(r'\n\s*\n', text)` on the line list:
a separator needs two newlines, so a run of blank lines separates pieces
only if, relative to the current scan position, it neither starts at the
very first line nor ends at the very last line; greedy matching absorbs a
whole blank run but always leaves a final line. -/

/-- Paragraph-split scanner.  `eating` is true while inside a separator
(absorbing blank lines); `cur` is the reversed current piece. -/
def spGo : Bool → DocText → DocText → List DocText
  | _, cur, [] => [cur.reverse]
  | true, cur, l :: rest =>
    if lineBlank l && !rest.isEmpty then
      spGo true cur rest
    else
      spGo false [l] rest
  | false, cur, l :: rest =>
    if lineBlank l && !cur.isEmpty && !rest.isEmpty then
      cur.reverse :: spGo true [] rest
    else
      spGo false (l :: cur) rest

/-- `re.split(r'\n\s*\n', text)` over the rendered line list. -/
def splitParagraphs (t : DocText) : List DocText :=
  spGo false [] t

/-- Inner word-accumulation loop of `_split_by_sentences`, used when a
single line exceeds the token ceiling.  Returns the emitted chunks and the
replacement `current_lines` (the unflushed tail as a single joined line). -/
def splitWordsGo (mx : Nat) (chunks : List DocText) (wc : Line) :
    List String → List DocText × DocText
  | [] => (chunks, if wc.isEmpty then [] else [wc])
  | w :: ws =>
    let test := wc ++ [w]
    if test.length ≤ mx then splitWordsGo mx chunks test ws
    else
      let chunks1 := if wc.isEmpty then chunks else chunks ++ [[wc]]
      splitWordsGo mx chunks1 [w] ws

/-- Line-accumulation loop of `_split_by_sentences`. -/
def sbsGo (mx : Nat) (chunks : List DocText) (cur : DocText) :
    DocText → List DocText
  | [] => if cur.isEmpty then chunks else chunks ++ [cur]
  | l :: rest =>
    let cand := cur ++ [l]
    if count_tokens cand ≤ mx then sbsGo mx chunks cand rest
    else
      let chunks1 := if cur.isEmpty then chunks else chunks ++ [cur]
      if mx < l.length then
        let r := splitWordsGo mx chunks1 [] l
        sbsGo mx r.1 r.2 rest
      else
        sbsGo mx chunks1 [l] rest

/-- `_split_by_sentences`. -/
def split_by_sentences (text : DocText) (mx : Nat) : List DocText :=
  let chunks := sbsGo mx [] [] text
  if chunks.isEmpty then [text] else chunks

/-- Paragraph-accumulation loop of `_split_oversized`.  Note the faithful
quirk: when an individually oversized paragraph is reached, the accumulator
is flushed but not cleared. -/
def soGo (mx : Nat) (chunks : List DocText) (cur : DocText) :
    List DocText → List DocText
  | [] => if strTruthy cur then chunks ++ [cur] else chunks
  | p :: ps =>
    let cand := if strTruthy cur then stripText (cur ++ [[]] ++ p) else p
    if count_tokens cand ≤ mx then soGo mx chunks cand ps
    else
      let chunks1 := if strTruthy cur then chunks ++ [cur] else chunks
      if mx < count_tokens p then
        soGo mx (chunks1 ++ split_by_sentences p mx) cur ps
      else
        soGo mx chunks1 p ps

/-- `_split_oversized`. -/
def split_oversized (text : DocText) (mx : Nat) : List DocText :=
  let paragraphs := splitParagraphs text
  if 1 < paragraphs.length then
    let chunks := soGo mx [] [] paragraphs
    if chunks.isEmpty then [text] else chunks
  else
    split_by_sentences text mx

/-- R2: keep a chunk within the 2000-token ceiling, splitting oversized
chunks. -/
def apply_rule_r2_size_targets (chunks : List DocText) : List DocText :=
  (chunks.map fun c =>
    if count_tokens c ≤ 2000 then [c] else split_oversized c 2000).flatten

/-!  Rule R6: merge chunks under half the minimum into the next chunk (the
merged result lands in the next slot and is re-examined). -/

/-- R6 loop, fueled by the list length. -/
def r6Go (threshold : Nat) : Nat → List DocText → List DocText
  | 0, cs => cs
  | _ + 1, [] => []
  | _ + 1, [c] => [c]
  | fuel + 1, c :: d :: rest =>
    if count_tokens c < threshold then
      r6Go threshold fuel ((c ++ [[]] ++ d) :: rest)
    else
      c :: r6Go threshold fuel (d :: rest)

/-- R6 with the default `min_tokens = 200` (merge threshold 100). -/
def apply_rule_r6_merge_small (chunks : List DocText)
    (minTokens : Nat := 200) : List DocText :=
  if chunks.length ≤ 1 then chunks
  else r6Go (minTokens / 2) chunks.length chunks

/-!  Rule R7: merge a cross-reference-only chunk into the previous chunk. -/

/-- `_is_crossref_only`: every line of the stripped chunk is blank, matches
a cross-reference pattern, or is a short all-uppercase heading. -/
def is_crossref_only (text : DocText) (pats : List (Line → Bool)) : Bool :=
  (stripText text).all fun l =>
    lineBlank l || pats.any (fun p => p l) || (lineIsUpper l && l.length ≤ 5)

/-- R7 loop with the reversed output accumulator (merging into the previous
chunk rewrites the accumulator head). -/
def r7Go (pats : List (Line → Bool)) (accRev : List DocText) :
    List DocText → List DocText
  | [] => accRev.reverse
  | c :: rest =>
    if is_crossref_only c pats then
      match accRev with
      | [] => r7Go pats [c] rest
      | p :: as' => r7Go pats ((p ++ [[]] ++ c) :: as') rest
    else
      r7Go pats (c :: accRev) rest

/-- R7. -/
def apply_rule_r7_crossref_merge (chunks : List DocText)
    (pats : List (Line → Bool)) : List DocText :=
  r7Go pats [] chunks

/-!  Rule R8: merge a chunk whose first non-blank line is a figure
reference back into the previous chunk when that chunk mentions the same
figure identifier. -/

/-- All figure identifiers extracted from a chunk, in order
(`pat.finditer` over the joined text). -/
def figMatchesAll (fp : Line → List String) (t : DocText) : List String :=
  (t.map fp).flatten

/-- R8 loop. -/
def r8Go (fp : Line → List String) (accRev : List DocText) :
    List DocText → List DocText
  | [] => accRev.reverse
  | c :: rest =>
    match accRev with
    | [] => r8Go fp [c] rest
    | p :: as' =>
      match (c.dropWhile lineBlank).head? with
      | none => r8Go fp (c :: p :: as') rest
      | some firstLine =>
        match (fp firstLine).head? with
        | none => r8Go fp (c :: p :: as') rest
        | some figId =>
          if (figMatchesAll fp p).contains figId then
            r8Go fp ((p ++ [[]] ++ c) :: as') rest
          else
            r8Go fp (c :: p :: as') rest

/-- R8. -/
def apply_rule_r8_figure_continuity (chunks : List DocText)
    (fp : Line → List String) : List DocText :=
  r8Go fp [] chunks

/-!  The per-entry rule pipeline of assemble_chunks: R1, R3, R4, R5 (semantic
integrity), then R2, R6, R7, R8 (size enforcement and cleanup). -/

def applyEntryRules (profile : ManualProfile) (text : DocText) :
    List DocText :=
  let t1 := apply_rule_r1_primary_unit text
  let t3 := (t1.map fun tc =>
    apply_rule_r3_never_split_steps tc profile.step_patterns).flatten
  let t4 := apply_rule_r4_safety_attachment profile t3
  let t5 := apply_rule_r5_table_integrity t4
  let t2 := apply_rule_r2_size_targets t5
  let t6 := apply_rule_r6_merge_small t2
  let t7 := apply_rule_r7_crossref_merge t6 profile.cross_reference_patterns
  match profile.figure_reference_pattern with
  | some fp => apply_rule_r8_figure_continuity t7 fp
  | none => t7

/-!  The cross-entry merge pass `merge_small_across_entries`. -/

/-- `_extract_level1_id`: the second `::` segment of the chunk id. -/
def extract_level1_id (c : Chunk) : String :=
  match c.chunk_id.splitOn "::" with
  | _ :: l1 :: _ => l1
  | _ => ""

/-- The merge condition of one step of the merge pass. -/
def mergeCond (minTokens maxTokens : Nat) (c d : Chunk) : Bool :=
  count_tokens c.text < minTokens &&
    extract_level1_id c = extract_level1_id d &&
    count_tokens (c.text ++ [[]] ++ d.text) ≤ maxTokens

/-- The chunk obtained by prepending `c`'s text to `d` (which keeps its id
and metadata). -/
def mergedChunk (c d : Chunk) : Chunk :=
  { chunk_id := d.chunk_id
    manual_id := d.manual_id
    text := c.text ++ [[]] ++ d.text
    metadata := d.metadata }

/-- One merge pass, fueled by the list length (the merged chunk lands in
the next slot and is re-examined). -/
def mergePassGo (minTokens maxTokens : Nat) : Nat → List Chunk → List Chunk
  | 0, cs => cs
  | _ + 1, [] => []
  | _ + 1, [c] => [c]
  | fuel + 1, c :: d :: rest =>
    if mergeCond minTokens maxTokens c d then
      mergePassGo minTokens maxTokens fuel (mergedChunk c d :: rest)
    else
      c :: mergePassGo minTokens maxTokens fuel (d :: rest)

/-- One merge pass over the whole chunk list. -/
def mergePass (minTokens maxTokens : Nat) (chunks : List Chunk) : List Chunk :=
  mergePassGo minTokens maxTokens chunks.length chunks

/-- The pass loop: run a pass, stop as soon as a pass leaves the length
unchanged, and never run more than the given number of passes. -/
def mergeLoop (minTokens maxTokens : Nat) : Nat → List Chunk → List Chunk
  | 0, w => w
  | fuel + 1, w =>
    let m := mergePass minTokens maxTokens w
    if m.length = w.length then m else mergeLoop minTokens maxTokens fuel m

/-- merge_small_across_entries with its defaults (`min_tokens = 200`,
`max_tokens = 2000`, up to 10 passes). -/
def merge_small_across_entries (chunks : List Chunk)
    (minTokens : Nat := 200) (maxTokens : Nat := 2000) : List Chunk :=
  if chunks.isEmpty then []
  else mergeLoop minTokens maxTokens 10 chunks

/-!  Specification-side definitions, written from the spec's words, used to
compare against the code-translated functions above. -/

/-- Pair every element with its successor in the same list (the reading of
pass 3 under which a boundary's span ends at the next boundary of the
sequence being traversed). -/
def withSucc : List α → List (α × Option α)
  | [] => []
  | a :: rest => (a, rest.head?) :: withSucc rest

/-- Modelled from the spec: the claim's reading of pass 3, in which
"surviving" means surviving pass 3's own removals as well — each boundary's
span ends at the next boundary that pass 3 keeps (or the document end). -/
def pass3SelfSurviving (profile : ManualProfile) (allLines : List Line)
    (total : Nat) : List Boundary → List Boundary
  | [] => []
  | b :: rest =>
    let later := pass3SelfSurviving profile allLines total rest
    let endLine :=
      match later.head? with
      | some nb => nb.line_number
      | none => total
    if pass3Keep profile allLines b endLine then b :: later else later

/-- Modelled from the spec: one cross-entry merge pass as the spec words it —
a chunk below the minimum is merged into the next chunk exactly when both
share the level-1 id segment and the combined text stays within the maximum;
the merged chunk keeps the next chunk's identity and is re-examined. -/
def mergePassSpec (minTokens maxTokens : Nat) : List Chunk → List Chunk
  | [] => []
  | [c] => [c]
  | c :: d :: rest =>
    if mergeCond minTokens maxTokens c d then
      mergePassSpec minTokens maxTokens (mergedChunk c d :: rest)
    else
      c :: mergePassSpec minTokens maxTokens (d :: rest)
termination_by l => l.length

/-- A fragment "consists only of safety-callout block lines" when every one
of its non-blank lines is covered by a callout block that
`detect_safety_callouts` finds in the fragment itself. -/
def calloutOnlyFragment (profile : ManualProfile) (c : DocText) : Bool :=
  c.enum.all fun p =>
    lineBlank p.2 ||
      (detect_safety_callouts c profile).any fun co =>
        co.start_line ≤ p.1 && p.1 ≤ co.end_line

/-!  Concrete pattern instances and inputs used by witnesses and
counterexamples. -/

/-- A concrete step pattern: `^\((\d+)\)\s` — the first word is a
parenthesised number followed by further content; the capture is the digit
string. -/
def exStepPat : Line → Option String := fun l =>
  match l with
  | w :: _ :: _ =>
    if parenDigitsWord w then some (String.mk ((w.toList.drop 1).dropLast))
    else none
  | _ => none

/-- A concrete warning-callout pattern: the line starts with `WARNING:`. -/
def exWarnPat : Line → Bool := fun l => l.head? = some "WARNING:"

/-- A hierarchy level with no filters configured. -/
def exPlainLevel (lvl : Nat) (nm : String) : HierarchyLevel :=
  ⟨lvl, nm, none, none, [], false, 0, 0, false⟩

/-- A level-1 hierarchy entry with a minimum-content-words filter. -/
def exMinWordsLevel (n : Nat) : HierarchyLevel :=
  ⟨1, "group", none, none, [], false, 0, n, false⟩

/-- Profile used by the step-run scenarios: one step pattern, nothing else. -/
def exStepProfile : ManualProfile :=
  ⟨"m", "Manual", [], [], [exStepPat], none, [], []⟩

/-- Profile used by the safety-attachment scenarios: one warning pattern. -/
def exWarnProfile : ManualProfile :=
  ⟨"m", "Manual", [], [], [], none, [], [⟨"warning", exWarnPat⟩]⟩

/-- Profile used by the pass-3 scenarios: a single level-1 with
`min_content_words = 5`. -/
def exMinWordsProfile : ManualProfile :=
  ⟨"m", "Manual", [], [exMinWordsLevel 5], [], none, [], []⟩

/-- Twenty step markers `(1)` … `(20)`. -/
def cxMarkers : List String :=
  ["(1)", "(2)", "(3)", "(4)", "(5)", "(6)", "(7)", "(8)", "(9)", "(10)",
   "(11)", "(12)", "(13)", "(14)", "(15)", "(16)", "(17)", "(18)", "(19)", "(20)"]

/-- A single uninterrupted step run of 20 steps, 101 words per line, for a
total of 2020 estimated tokens — just over the 2000-token ceiling of R2. -/
def cxRun : DocText := cxMarkers.map (fun m => m :: List.replicate 100 "w")

/-- An entry text in which a two-word paragraph is followed by a paragraph
whose own token count (2020) exceeds the R2 ceiling. -/
def cxDupInput : DocText := [["a","b"],[]] ++ cxRun

/-- Two level-1 boundaries at global lines 0 and 2 of a four-line page. -/
def cxB1 : Boundary := ⟨1, "group", some "A", none, 0, 0⟩

def cxB2 : Boundary := ⟨1, "group", some "B", none, 0, 2⟩

/-- One page: `H1` / `x y` / `H2` / `a b` (1, 2, 1, 2 words per line). -/
def cxPages : List DocText := [[["H1"],["x","y"],["H2"],["a","b"]]]

/-!  Shared lemmas. -/

theorem count_tokens_append (a b : DocText) :
    count_tokens (a ++ b) = count_tokens a + count_tokens b := by
  simp [count_tokens]

theorem count_tokens_dropWhile_blank (t : DocText) :
    count_tokens (t.dropWhile lineBlank) = count_tokens t := by
  induction t with
  | nil => rfl
  | cons l rest ih =>
    by_cases h : lineBlank l
    · have hl : l = [] := by simpa [lineBlank] using h
      subst hl
      simpa [List.dropWhile_cons, lineBlank, count_tokens] using ih
    · simp [List.dropWhile_cons, h]

theorem count_tokens_reverse (t : DocText) :
    count_tokens t.reverse = count_tokens t := by
  simp [count_tokens, List.sum_reverse]

theorem count_tokens_stripText (t : DocText) :
    count_tokens (stripText t) = count_tokens t := by
  unfold stripText
  rw [count_tokens_reverse, count_tokens_dropWhile_blank, count_tokens_reverse,
    count_tokens_dropWhile_blank]

theorem count_tokens_of_not_strTruthy {t : DocText} (h : strTruthy t = false) :
    count_tokens t = 0 := by
  have hs : stripText t = [] := by
    simpa [strTruthy] using h
  have := count_tokens_stripText t
  rw [hs] at this
  simpa [count_tokens] using this.symm

/-- The right-strip of a text is an initial segment of it. -/
theorem stripRight_append (t : DocText) :
    (t.reverse.dropWhile lineBlank).reverse ++
      (t.reverse.takeWhile lineBlank).reverse = t := by
  have h : t.reverse.takeWhile lineBlank ++ t.reverse.dropWhile lineBlank =
      t.reverse := List.takeWhile_append_dropWhile lineBlank t.reverse
  have h2 : (t.reverse.takeWhile lineBlank ++ t.reverse.dropWhile lineBlank).reverse =
      t.reverse.reverse := by rw [h]
  rw [List.reverse_append, List.reverse_reverse] at h2
  exact h2

theorem dropWhile_blank_of_head {l0 : Line} {ls : DocText}
    (h : lineBlank l0 = false) :
    (l0 :: ls).dropWhile lineBlank = l0 :: ls := by
  simp [List.dropWhile_cons, h]

/-- When the first line is non-blank, stripping only removes trailing blank
lines, so the stripped text is an initial segment of the original. -/
theorem stripText_append_of_head {l0 : Line} {ls : DocText}
    (h : lineBlank l0 = false) :
    stripText (l0 :: ls) ++
      ((l0 :: ls).reverse.takeWhile lineBlank).reverse = l0 :: ls := by
  unfold stripText
  rw [dropWhile_blank_of_head h]
  exact stripRight_append (l0 :: ls)

theorem stripText_getD_of_head {l0 : Line} {ls : DocText}
    (h : lineBlank l0 = false) {n : Nat}
    (hn : n < (stripText (l0 :: ls)).length) :
    (stripText (l0 :: ls)).getD n [] = (l0 :: ls).getD n [] := by
  have happ := @stripText_append_of_head l0 ls h
  conv_rhs => rw [← happ]
  exact (List.getD_append _ _ _ _ hn).symm

theorem stripText_length_le_of_head {l0 : Line} {ls : DocText}
    (h : lineBlank l0 = false) :
    (stripText (l0 :: ls)).length ≤ (l0 :: ls).length := by
  have happ := @stripText_append_of_head l0 ls h
  calc (stripText (l0 :: ls)).length
      ≤ (stripText (l0 :: ls)).length +
          (((l0 :: ls).reverse.takeWhile lineBlank).reverse).length := Nat.le_add_right _ _
    _ = (l0 :: ls).length := by rw [← List.length_append, happ]

theorem getD_eq_getElem_of_lt {l : List α} {n : Nat} (d : α) (h : n < l.length) :
    l.getD n d = l[n] := by
  rw [List.getD_eq_getElem?_getD, List.getElem?_eq_getElem h]
  rfl

/-!  Claim C8.  The spec claims pass 3 measures content up to the next
boundary that survives the whole filter (pass 3's own removals included);
the code measures up to the next boundary of pass 3's *input* (the output of
passes 0–2), whether or not pass 3 later drops it. -/

/-- Counterexample to C8: both boundaries sit at a level with
`min_content_words = 5`.  The second has 3 words of content and is dropped
either way.  Under the claim's reading the first boundary's span then runs
to the document end (6 words ≥ 5) and survives; the code instead measures
only up to the dropped boundary's line (3 words < 5) and removes it too. -/
theorem pass3_next_surviving_counterexample :
    filter_boundaries [cxB1, cxB2] exMinWordsProfile cxPages = [] ∧
    pass3SelfSurviving exMinWordsProfile (joinPages cxPages) 4 [cxB1, cxB2] = [cxB1] ∧
    spanWords (slice (joinPages cxPages) 0 4) = 6 ∧
    minWordsThreshold exMinWordsProfile 1 = 5 := by
  decide

/-- C8 (amended): for every boundary at a level configured with
`min-content-words = N`, pass 3 counts the words of every line between that
boundary and the next boundary of pass 3's input sequence — the output of
passes 0–2, not accounting for pass 3's own removals — or the document end,
and drops the boundary exactly when that count is below N. -/
theorem pass3_measures_to_input_successor (profile : ManualProfile)
    (allLines : List Line) (total : Nat) (bs : List Boundary) :
    pass3Go profile allLines total bs =
      (withSucc bs).filterMap fun p =>
        if pass3Keep profile allLines p.1
            (match p.2 with | some nb => nb.line_number | none => total)
        then some p.1 else none := by
  induction bs with
  | nil => rfl
  | cons b rest ih =>
    by_cases h : pass3Keep profile allLines b
        (match rest.head? with | some nb => nb.line_number | none => total)
    · simp [pass3Go, withSucc, h, ih]
    · simp [pass3Go, withSucc, h, ih]

/-!  Claim C6.  The spec describes R2's recursive splitting as a partition
of the oversized fragment's words.  In `_split_oversized`, when an
individually oversized paragraph is reached while the accumulator holds
text, the accumulator is flushed but not cleared, so its words are emitted
again later: the output duplicates content. -/

/-- C6 (code bug): on a fragment made of a two-word paragraph followed by a
2020-token paragraph, R2's splitting emits the two-word paragraph twice —
the output carries 2024 words for a 2022-word input, so the outputs'
concatenated word sequence cannot equal the input's. -/
theorem split_oversized_duplicates_content :
    apply_rule_r2_size_targets [cxDupInput] =
      [[["a","b"]], cxRun.take 19, cxRun.drop 19, [["a","b"]]] ∧
    totalTokens (apply_rule_r2_size_targets [cxDupInput]) = 2024 ∧
    count_tokens cxDupInput = 2022 := by
  decide

/-!  Claim C4.  `apply_rule_r4_safety_attachment` computes callout line
ranges on the unstripped fragment but checks for residual procedure lines
on the stripped fragment, so a callout-only fragment that starts with a
blank line is not merged forward. -/

/-- Counterexample to C4: a fragment whose only non-blank line is a WARNING
callout, preceded by a blank line, followed by a procedure fragment — R4
leaves the list unchanged instead of merging the callout forward. -/
theorem callout_only_leading_blank_not_merged :
    calloutOnlyFragment exWarnProfile [[],["WARNING:","hot"]] = true ∧
    apply_rule_r4_safety_attachment exWarnProfile
      [[[],["WARNING:","hot"]], [["(1)","go"]]] =
      [[[],["WARNING:","hot"]], [["(1)","go"]]] := by
  decide

/-- C4 (amended): a fragment whose first line is non-blank and that
consists only of safety-callout block lines is always merged forward into
the following fragment when one exists. -/
theorem callout_only_fragment_merged_forward (profile : ManualProfile)
    (l0 : Line) (ls : DocText) (d : DocText) (rest : List DocText)
    (h0 : lineBlank l0 = false)
    (hco : calloutOnlyFragment profile (l0 :: ls) = true) :
    apply_rule_r4_safety_attachment profile ((l0 :: ls) :: d :: rest) =
      ((l0 :: ls) ++ [[]] ++ d) :: apply_rule_r4_safety_attachment profile rest := by
  have hcov : ∀ n, (hn : n < (l0 :: ls).length) →
      lineBlank ((l0 :: ls).getD n []) = true ∨
        ((detect_safety_callouts (l0 :: ls) profile).any fun co =>
          co.start_line ≤ n && n ≤ co.end_line) = true := by
    intro n hn
    have hmem : (n, (l0 :: ls)[n]) ∈ (l0 :: ls).enum := by
      rw [List.mem_enum_iff_getElem?]
      exact List.getElem?_eq_getElem hn
    have := (List.all_eq_true.mp hco) _ hmem
    rw [getD_eq_getElem_of_lt [] hn]
    simpa [Bool.or_eq_true] using this
  have hcond : r4MergeCond profile (l0 :: ls) = true := by
    have hzero : ((detect_safety_callouts (l0 :: ls) profile).any fun co =>
        co.start_line ≤ 0 && 0 ≤ co.end_line) = true := by
      rcases hcov 0 (by simp) with h | h
      · simp [List.getD] at h
        rw [h0] at h
        cases h
      · exact h
    have hnonempty : (detect_safety_callouts (l0 :: ls) profile).isEmpty = false := by
      cases hh : detect_safety_callouts (l0 :: ls) profile with
      | nil =>
        rw [hh] at hzero
        simp at hzero
      | cons a l => simp [hh]
    have hproc : ((List.range (stripText (l0 :: ls)).length).any fun ln =>
        (!((detect_safety_callouts (l0 :: ls) profile).any fun co =>
            co.start_line ≤ ln && ln ≤ co.end_line)) &&
          !lineBlank ((stripText (l0 :: ls)).getD ln [])) = false := by
      rw [List.any_eq_false]
      intro n hnmem
      have hlt : n < (stripText (l0 :: ls)).length := List.mem_range.mp hnmem
      have hlt' : n < (l0 :: ls).length :=
        lt_of_lt_of_le hlt (stripText_length_le_of_head h0)
      rw [stripText_getD_of_head h0 hlt]
      rcases hcov n hlt' with h | h
      · simp only [List.getD_eq_getElem?_getD] at h
        simp [h]
      · simp [h]
    show (if (detect_safety_callouts (l0 :: ls) profile).isEmpty = true then false
      else !((List.range (stripText (l0 :: ls)).length).any fun ln =>
        (!((detect_safety_callouts (l0 :: ls) profile).any fun co =>
            co.start_line ≤ ln && ln ≤ co.end_line)) &&
          !lineBlank ((stripText (l0 :: ls)).getD ln []))) = true
    rw [hnonempty, hproc]
    rfl
  simp [apply_rule_r4_safety_attachment, hcond]

/-- Witness for the amended C4 at a concrete input: a stripped callout-only
fragment followed by a procedure fragment is merged into one chunk. -/
theorem callout_only_fragment_merged_forward_witness :
    apply_rule_r4_safety_attachment exWarnProfile
      [[["WARNING:","hot"]], [["(1)","go"]]] =
      [[["WARNING:","hot"], [], ["(1)","go"]]] := by
  have h := callout_only_fragment_merged_forward exWarnProfile
    ["WARNING:","hot"] [] [["(1)","go"]] [] (by decide) (by decide)
  simpa using h

/-!  Claim C3.  R3 protects an uninterrupted step run in a single fragment,
but R2 runs afterwards and splits any fragment over the 2000-token ceiling,
steps included — the spec itself makes tables the sole size-ceiling
exception.  So the claim holds only for runs within the ceiling. -/

theorem snd_mem_of_mem_enum {l : List α} {x : Nat × α} (h : x ∈ l.enum) :
    x.2 ∈ l := by
  rw [List.mem_enum_iff_getElem?] at h
  exact List.mem_iff_getElem?.mpr ⟨x.1, h⟩

theorem stepLineIdxs_all_match {pats : List (Line → Option String)}
    {t : DocText}
    (h : ∀ l ∈ t, pats.any (fun p => (p l).isSome) = true) :
    stepLineIdxs pats t = List.range t.length := by
  unfold stepLineIdxs
  rw [List.filter_eq_self.mpr, List.enum_map_fst]
  intro x hx
  exact h x.2 (snd_mem_of_mem_enum hx)

theorem groupSteps_consecutive (pats : List (Line → Option String))
    (lines : DocText) (s : Nat) :
    ∀ (k e : Nat), groupSteps pats lines s e (List.range' (e + 1) k) = [(s, e + k)] := by
  intro k
  induction k with
  | zero => intro e; rfl
  | succ k ih =>
    intro e
    rw [List.range'_succ]
    have hcond : (stepRestarts pats lines e (e + 1) &&
        decide (1 < (e + 1) - e)) = false := by
      simp
    unfold groupSteps
    rw [hcond]
    simp only [Bool.false_eq_true, if_false]
    have := ih (e + 1)
    have harith : e + 1 + k = e + (k + 1) := by omega
    rw [← harith]
    simpa using this

theorem detect_uninterrupted_run (pats : List (Line → Option String))
    {t : DocText} {m : Nat} (hm : t.length = m + 1)
    (h : ∀ l ∈ t, pats.any (fun p => (p l).isSome) = true) :
    detect_step_sequences t pats = [(0, m)] := by
  unfold detect_step_sequences
  rw [stepLineIdxs_all_match h, hm, List.range_eq_range', List.range'_succ]
  simpa using groupSteps_consecutive pats t 0 m 0

theorem dropWhile_blank_eq_self {t : DocText}
    (h : ∀ l ∈ t, lineBlank l = false) : t.dropWhile lineBlank = t := by
  cases t with
  | nil => rfl
  | cons a rest =>
    rw [List.dropWhile_cons, h a (by simp)]
    simp

theorem stripText_eq_self {t : DocText}
    (h : ∀ l ∈ t, lineBlank l = false) : stripText t = t := by
  unfold stripText
  rw [dropWhile_blank_eq_self h]
  rw [dropWhile_blank_eq_self (fun l hl => h l (by simpa using hl))]
  exact List.reverse_reverse t

theorem r3Slices_whole {t : DocText} {m : Nat} (hm : t.length = m + 1)
    (hstrip : stripText t = t) :
    r3Slices t 0 [(0, m)] = [t] := by
  have hslice : slice t 0 (m + 1) = t := by
    unfold slice
    rw [List.drop_zero, Nat.sub_zero, ← hm, List.take_length]
  have hdrop : t.drop (m + 1) = [] := List.drop_eq_nil_of_le (by omega)
  have hne : t.isEmpty = false := by
    cases t with
    | nil => simp at hm
    | cons a r => rfl
  have htail : r3Slices t (m + 1) [] = [] := by
    simp only [r3Slices]
    rw [hdrop]
    rfl
  have hbefore : stripText (slice t 0 0) = [] := rfl
  calc r3Slices t 0 [(0, m)]
      = (if (stripText (slice t 0 0)).isEmpty = true then []
          else [stripText (slice t 0 0)]) ++
        ((if (stripText (slice t 0 (m + 1))).isEmpty = true then []
          else [stripText (slice t 0 (m + 1))]) ++ r3Slices t (m + 1) []) := rfl
    _ = [t] := by
        rw [hbefore, hslice, hstrip, htail]
        simp [hne]

theorem r3_single_run (pats : List (Line → Option String)) {t : DocText}
    (hall : ∀ l ∈ t, lineBlank l = false ∧ pats.any (fun p => (p l).isSome) = true)
    (hne : t ≠ []) :
    apply_rule_r3_never_split_steps t pats = [t] := by
  obtain ⟨m, hm⟩ : ∃ m, t.length = m + 1 := by
    cases t with
    | nil => exact absurd rfl hne
    | cons a r => exact ⟨r.length, rfl⟩
  have hdet := detect_uninterrupted_run pats hm (fun l hl => (hall l hl).2)
  have hstrip := stripText_eq_self (fun l hl => (hall l hl).1)
  have hslices := r3Slices_whole hm hstrip
  unfold apply_rule_r3_never_split_steps
  rw [hdet]
  have hsort : sortByB pairLE [(0, m)] = [(0, m)] := rfl
  simp [hsort, hslices]

theorem r4_single (profile : ManualProfile) (c : DocText) :
    apply_rule_r4_safety_attachment profile [c] = [c] := rfl

theorem r5_single (c : DocText) : apply_rule_r5_table_integrity [c] = [c] := rfl

theorem r2_single_small {c : DocText} (h : count_tokens c ≤ 2000) :
    apply_rule_r2_size_targets [c] = [c] := by
  simp [apply_rule_r2_size_targets, h]

theorem r6_single (c : DocText) : apply_rule_r6_merge_small [c] = [c] := rfl

theorem r7_single (pats : List (Line → Bool)) (c : DocText) :
    apply_rule_r7_crossref_merge [c] pats = [c] := by
  unfold apply_rule_r7_crossref_merge
  by_cases h : is_crossref_only c pats <;> simp [r7Go, h]

theorem r8_single (fp : Line → List String) (c : DocText) :
    apply_rule_r8_figure_continuity [c] fp = [c] := rfl

/-- Counterexample to C3: `cxRun` is a single uninterrupted run of 20 steps
(every line is a step line, the numbering never restarts, so R3 detects one
sequence spanning the whole text), yet with 2020 estimated tokens it exceeds
the R2 ceiling and the pipeline returns two fragments — the first 19 step
lines and the last step line — splitting the run across fragments. -/
theorem step_run_split_counterexample :
    count_tokens cxRun = 2020 ∧
    cxRun.all (fun l => !lineBlank l && (exStepPat l).isSome) = true ∧
    detect_step_sequences cxRun [exStepPat] = [(0, 19)] ∧
    applyEntryRules exStepProfile cxRun = [cxRun.take 19, cxRun.drop 19] ∧
    (cxRun.take 19).length = 19 ∧ (cxRun.drop 19).length = 1 ∧
    cxRun.take 19 ≠ cxRun.drop 19 := by
  decide

/-- C3 (amended): for every manifest-entry text that is a single
uninterrupted step run (every line non-blank and matching a step pattern)
whose estimated token count is within the R2 maximum of 2000, the R1–R8
pipeline returns the run as exactly one fragment, so every step-marker line
appears in exactly one fragment. -/
theorem step_run_within_ceiling_one_fragment (profile : ManualProfile)
    (t : DocText) (hne : t ≠ [])
    (hall : ∀ l ∈ t, lineBlank l = false ∧
      profile.step_patterns.any (fun p => (p l).isSome) = true)
    (hct : count_tokens t ≤ 2000) :
    applyEntryRules profile t = [t] := by
  have hnb : ∀ l ∈ t, lineBlank l = false := fun l hl => (hall l hl).1
  have hstrip : stripText t = t := stripText_eq_self hnb
  have hne' : t.isEmpty = false := by
    cases t with
    | nil => exact absurd rfl hne
    | cons a r => rfl
  have h1 : apply_rule_r1_primary_unit t = [t] := by
    unfold apply_rule_r1_primary_unit
    rw [hstrip, hne']
    simp
  have h3 := r3_single_run profile.step_patterns hall hne
  unfold applyEntryRules
  rw [h1]
  simp only [List.map_cons, List.map_nil, List.flatten_cons, List.flatten_nil,
    List.append_nil]
  rw [h3, r4_single, r5_single, r2_single_small hct, r6_single, r7_single]
  cases hfig : profile.figure_reference_pattern with
  | none => rfl
  | some fp => exact r8_single fp t

/-- Witness for the amended C3 at a concrete two-step run. -/
theorem step_run_within_ceiling_one_fragment_witness :
    applyEntryRules exStepProfile [["(1)","go"],["(2)","stop"]] =
      [[["(1)","go"],["(2)","stop"]]] :=
  step_run_within_ceiling_one_fragment exStepProfile
    [["(1)","go"],["(2)","stop"]] (by decide) (by decide) (by decide)

/-!  Claim C5: every fragment produced by R2 is within the 2000-token
ceiling.  The proof follows the three accumulation loops (words, lines,
paragraphs), showing each maintains "everything emitted fits and the
accumulator fits", and that the oversized-input fallback branches are
unreachable. -/

theorem count_tokens_cons (l : Line) (t : DocText) :
    count_tokens (l :: t) = l.length + count_tokens t := by
  simp [count_tokens]

theorem splitWordsGo_nil (mx : Nat) (chunks : List DocText) (wc : Line) :
    splitWordsGo mx chunks wc [] = (chunks, if wc.isEmpty then [] else [wc]) := rfl

theorem splitWordsGo_cons_le {mx : Nat} {chunks : List DocText} {wc : Line}
    {w : String} {ws : List String} (h : (wc ++ [w]).length ≤ mx) :
    splitWordsGo mx chunks wc (w :: ws) = splitWordsGo mx chunks (wc ++ [w]) ws := by
  simp only [splitWordsGo]
  rw [if_pos h]

theorem splitWordsGo_cons_gt {mx : Nat} {chunks : List DocText} {wc : Line}
    {w : String} {ws : List String} (h : ¬ (wc ++ [w]).length ≤ mx) :
    splitWordsGo mx chunks wc (w :: ws) =
      splitWordsGo mx (if wc.isEmpty then chunks else chunks ++ [[wc]]) [w] ws := by
  simp only [splitWordsGo]
  rw [if_neg h]

theorem sbsGo_nil (mx : Nat) (chunks : List DocText) (cur : DocText) :
    sbsGo mx chunks cur [] = if cur.isEmpty then chunks else chunks ++ [cur] := rfl

theorem sbsGo_cons_le {mx : Nat} {chunks : List DocText} {cur : DocText}
    {l : Line} {rest : DocText} (h : count_tokens (cur ++ [l]) ≤ mx) :
    sbsGo mx chunks cur (l :: rest) = sbsGo mx chunks (cur ++ [l]) rest := by
  simp only [sbsGo]
  rw [if_pos h]

theorem sbsGo_cons_word {mx : Nat} {chunks : List DocText} {cur : DocText}
    {l : Line} {rest : DocText} (h : ¬ count_tokens (cur ++ [l]) ≤ mx)
    (hw : mx < l.length) :
    sbsGo mx chunks cur (l :: rest) =
      sbsGo mx
        (splitWordsGo mx (if cur.isEmpty then chunks else chunks ++ [cur]) [] l).1
        (splitWordsGo mx (if cur.isEmpty then chunks else chunks ++ [cur]) [] l).2
        rest := by
  simp only [sbsGo]
  rw [if_neg h, if_pos hw]

theorem sbsGo_cons_line {mx : Nat} {chunks : List DocText} {cur : DocText}
    {l : Line} {rest : DocText} (h : ¬ count_tokens (cur ++ [l]) ≤ mx)
    (hw : ¬ mx < l.length) :
    sbsGo mx chunks cur (l :: rest) =
      sbsGo mx (if cur.isEmpty then chunks else chunks ++ [cur]) [l] rest := by
  simp only [sbsGo]
  rw [if_neg h, if_neg hw]

theorem soGo_nil (mx : Nat) (chunks : List DocText) (cur : DocText) :
    soGo mx chunks cur [] = if strTruthy cur then chunks ++ [cur] else chunks := rfl

theorem soGo_cons_le {mx : Nat} {chunks : List DocText} {cur p : DocText}
    {ps : List DocText}
    (h : count_tokens (if strTruthy cur then stripText (cur ++ [[]] ++ p) else p) ≤ mx) :
    soGo mx chunks cur (p :: ps) =
      soGo mx chunks (if strTruthy cur then stripText (cur ++ [[]] ++ p) else p) ps := by
  simp only [soGo]
  rw [if_pos h]

theorem soGo_cons_big {mx : Nat} {chunks : List DocText} {cur p : DocText}
    {ps : List DocText}
    (h : ¬ count_tokens (if strTruthy cur then stripText (cur ++ [[]] ++ p) else p) ≤ mx)
    (hp : mx < count_tokens p) :
    soGo mx chunks cur (p :: ps) =
      soGo mx ((if strTruthy cur then chunks ++ [cur] else chunks) ++
        split_by_sentences p mx) cur ps := by
  simp only [soGo]
  rw [if_neg h, if_pos hp]

theorem soGo_cons_small {mx : Nat} {chunks : List DocText} {cur p : DocText}
    {ps : List DocText}
    (h : ¬ count_tokens (if strTruthy cur then stripText (cur ++ [[]] ++ p) else p) ≤ mx)
    (hp : ¬ mx < count_tokens p) :
    soGo mx chunks cur (p :: ps) =
      soGo mx (if strTruthy cur then chunks ++ [cur] else chunks) p ps := by
  simp only [soGo]
  rw [if_neg h, if_neg hp]

theorem splitWordsGo_bound {mx : Nat} (hmx : 1 ≤ mx) :
    ∀ (ws : List String) (chunks : List DocText) (wc : Line),
      (∀ c ∈ chunks, count_tokens c ≤ mx) → wc.length ≤ mx →
      (∀ c ∈ (splitWordsGo mx chunks wc ws).1, count_tokens c ≤ mx) ∧
        count_tokens (splitWordsGo mx chunks wc ws).2 ≤ mx := by
  intro ws
  induction ws with
  | nil =>
    intro chunks wc hch hwc
    rw [splitWordsGo_nil]
    refine ⟨hch, ?_⟩
    by_cases hwce : wc.isEmpty
    · rw [if_pos hwce]
      simp [count_tokens]
    · rw [if_neg hwce]
      simpa [count_tokens] using hwc
  | cons w ws ih =>
    intro chunks wc hch hwc
    by_cases h : (wc ++ [w]).length ≤ mx
    · rw [splitWordsGo_cons_le h]
      exact ih chunks (wc ++ [w]) hch h
    · rw [splitWordsGo_cons_gt h]
      refine ih _ [w] ?_ (by simpa using hmx)
      by_cases hwce : wc.isEmpty
      · rw [if_pos hwce]
        exact hch
      · rw [if_neg hwce]
        intro x hx
        rcases List.mem_append.mp hx with h1 | h1
        · exact hch x h1
        · have hx2 : x = [wc] := by simpa using h1
          subst hx2
          simpa [count_tokens] using hwc

theorem splitWordsGo_snd_ne {mx : Nat} :
    ∀ (ws : List String) (chunks : List DocText) (wc : Line),
      (ws ≠ [] ∨ wc ≠ []) → (splitWordsGo mx chunks wc ws).2 ≠ [] := by
  intro ws
  induction ws with
  | nil =>
    intro chunks wc h
    have hwc : wc ≠ [] := by
      rcases h with h | h
      · exact absurd rfl h
      · exact h
    rw [splitWordsGo_nil]
    simp [hwc]
  | cons w ws ih =>
    intro chunks wc _
    by_cases h : (wc ++ [w]).length ≤ mx
    · rw [splitWordsGo_cons_le h]
      exact ih chunks (wc ++ [w]) (Or.inr (by simp))
    · rw [splitWordsGo_cons_gt h]
      exact ih _ [w] (Or.inr (by simp))

theorem sbsGo_bound {mx : Nat} (hmx : 1 ≤ mx) :
    ∀ (t : DocText) (chunks : List DocText) (cur : DocText),
      (∀ c ∈ chunks, count_tokens c ≤ mx) → count_tokens cur ≤ mx →
      ∀ c ∈ sbsGo mx chunks cur t, count_tokens c ≤ mx := by
  intro t
  induction t with
  | nil =>
    intro chunks cur hch hcur c hc
    rw [sbsGo_nil] at hc
    by_cases hce : cur.isEmpty
    · rw [if_pos hce] at hc
      exact hch c hc
    · rw [if_neg hce] at hc
      rcases List.mem_append.mp hc with h1 | h1
      · exact hch c h1
      · have : c = cur := by simpa using h1
        subst this
        exact hcur
  | cons l rest ih =>
    intro chunks cur hch hcur c hc
    have hch1 : ∀ x ∈ (if cur.isEmpty then chunks else chunks ++ [cur]),
        count_tokens x ≤ mx := by
      by_cases hce : cur.isEmpty
      · rw [if_pos hce]
        exact hch
      · rw [if_neg hce]
        intro x hx
        rcases List.mem_append.mp hx with h1 | h1
        · exact hch x h1
        · have : x = cur := by simpa using h1
          subst this
          exact hcur
    by_cases h : count_tokens (cur ++ [l]) ≤ mx
    · rw [sbsGo_cons_le h] at hc
      exact ih chunks (cur ++ [l]) hch h c hc
    · by_cases hw : mx < l.length
      · rw [sbsGo_cons_word h hw] at hc
        have hsw := splitWordsGo_bound hmx l _ [] hch1 (by simp)
        exact ih _ _ hsw.1 hsw.2 c hc
      · rw [sbsGo_cons_line h hw] at hc
        have hl : count_tokens [l] ≤ mx := by
          simpa [count_tokens] using Nat.le_of_not_lt hw
        exact ih _ [l] hch1 hl c hc

theorem sbsGo_ne_nil {mx : Nat} :
    ∀ (t : DocText) (chunks : List DocText) (cur : DocText),
      (t ≠ [] ∨ cur ≠ [] ∨ chunks ≠ []) → sbsGo mx chunks cur t ≠ [] := by
  intro t
  induction t with
  | nil =>
    intro chunks cur h
    rw [sbsGo_nil]
    rcases h with h | h | h
    · exact absurd rfl h
    · simp [h]
    · by_cases hce : cur.isEmpty
      · rw [if_pos hce]
        exact h
      · rw [if_neg hce]
        simp
  | cons l rest ih =>
    intro chunks cur _
    by_cases h : count_tokens (cur ++ [l]) ≤ mx
    · rw [sbsGo_cons_le h]
      exact ih chunks (cur ++ [l]) (Or.inr (Or.inl (by simp)))
    · by_cases hw : mx < l.length
      · rw [sbsGo_cons_word h hw]
        have hl : l ≠ [] := by
          intro hnil
          rw [hnil] at hw
          simp at hw
        have hne2 := @splitWordsGo_snd_ne mx l
          (if cur.isEmpty then chunks else chunks ++ [cur]) [] (Or.inl hl)
        exact ih _ _ (Or.inr (Or.inl hne2))
      · rw [sbsGo_cons_line h hw]
        exact ih _ [l] (Or.inr (Or.inl (by simp)))

theorem split_by_sentences_bound {mx : Nat} (hmx : 1 ≤ mx) {t : DocText}
    (ht : mx < count_tokens t) :
    ∀ c ∈ split_by_sentences t mx, count_tokens c ≤ mx := by
  have htne : t ≠ [] := by
    intro hnil
    rw [hnil] at ht
    exact absurd ht (by simp [count_tokens])
  have hne := @sbsGo_ne_nil mx t [] [] (Or.inl htne)
  intro c hc
  unfold split_by_sentences at hc
  rw [if_neg (by simpa using hne)] at hc
  exact sbsGo_bound hmx t [] [] (by simp) (by simp [count_tokens]) c hc

theorem split_by_sentences_ne_nil (t : DocText) (mx : Nat) :
    split_by_sentences t mx ≠ [] := by
  unfold split_by_sentences
  by_cases h : (sbsGo mx [] [] t).isEmpty
  · rw [if_pos h]
    simp
  · rw [if_neg h]
    simpa using h

/-- The token count of the candidate built from the accumulator and the
next paragraph is the sum of their token counts. -/
theorem soGo_cand_count (cur p : DocText) :
    count_tokens (if strTruthy cur then stripText (cur ++ [[]] ++ p) else p) =
      count_tokens cur + count_tokens p := by
  by_cases h : strTruthy cur
  · rw [if_pos h, count_tokens_stripText]
    simp [count_tokens_append, count_tokens_cons]
  · rw [if_neg h, @count_tokens_of_not_strTruthy cur (by simpa using h)]
    omega

theorem soGo_bound {mx : Nat} (hmx : 1 ≤ mx) :
    ∀ (ps : List DocText) (chunks : List DocText) (cur : DocText),
      (∀ c ∈ chunks, count_tokens c ≤ mx) → count_tokens cur ≤ mx →
      ∀ c ∈ soGo mx chunks cur ps, count_tokens c ≤ mx := by
  intro ps
  induction ps with
  | nil =>
    intro chunks cur hch hcur c hc
    rw [soGo_nil] at hc
    by_cases h : strTruthy cur
    · rw [if_pos h] at hc
      rcases List.mem_append.mp hc with h1 | h1
      · exact hch c h1
      · have : c = cur := by simpa using h1
        subst this
        exact hcur
    · rw [if_neg h] at hc
      exact hch c hc
  | cons p ps ih =>
    intro chunks cur hch hcur c hc
    have hch1 : ∀ x ∈ (if strTruthy cur then chunks ++ [cur] else chunks),
        count_tokens x ≤ mx := by
      by_cases hs : strTruthy cur
      · rw [if_pos hs]
        intro x hx
        rcases List.mem_append.mp hx with h1 | h1
        · exact hch x h1
        · have : x = cur := by simpa using h1
          subst this
          exact hcur
      · rw [if_neg hs]
        exact hch
    by_cases h : count_tokens
        (if strTruthy cur then stripText (cur ++ [[]] ++ p) else p) ≤ mx
    · rw [soGo_cons_le h] at hc
      exact ih chunks _ hch h c hc
    · by_cases hp : mx < count_tokens p
      · rw [soGo_cons_big h hp] at hc
        have hsb := split_by_sentences_bound hmx hp
        have hch2 : ∀ x ∈ ((if strTruthy cur then chunks ++ [cur] else chunks) ++
            split_by_sentences p mx), count_tokens x ≤ mx := by
          intro x hx
          rcases List.mem_append.mp hx with h1 | h1
          · exact hch1 x h1
          · exact hsb x h1
        exact ih _ cur hch2 hcur c hc
      · rw [soGo_cons_small h hp] at hc
        exact ih _ p hch1 (Nat.le_of_not_lt hp) c hc

theorem soGo_chunks_ne {mx : Nat} :
    ∀ (ps : List DocText) (chunks : List DocText) (cur : DocText),
      chunks ≠ [] → soGo mx chunks cur ps ≠ [] := by
  intro ps
  induction ps with
  | nil =>
    intro chunks cur h
    rw [soGo_nil]
    by_cases hs : strTruthy cur
    · rw [if_pos hs]
      simp
    · rw [if_neg hs]
      exact h
  | cons p ps ih =>
    intro chunks cur h
    have h1 : (if strTruthy cur then chunks ++ [cur] else chunks) ≠ [] := by
      by_cases hs : strTruthy cur
      · rw [if_pos hs]
        simp
      · rw [if_neg hs]
        exact h
    by_cases hc : count_tokens
        (if strTruthy cur then stripText (cur ++ [[]] ++ p) else p) ≤ mx
    · rw [soGo_cons_le hc]
      exact ih chunks _ h
    · by_cases hp : mx < count_tokens p
      · rw [soGo_cons_big hc hp]
        refine ih _ cur ?_
        intro hcontra
        rw [List.append_eq_nil] at hcontra
        exact h1 hcontra.1
      · rw [soGo_cons_small hc hp]
        exact ih _ p h1

theorem soGo_eq_nil {mx : Nat} :
    ∀ (ps : List DocText) (chunks : List DocText) (cur : DocText),
      soGo mx chunks cur ps = [] →
      chunks = [] ∧ count_tokens cur + (ps.map count_tokens).sum = 0 := by
  intro ps
  induction ps with
  | nil =>
    intro chunks cur h
    rw [soGo_nil] at h
    by_cases hs : strTruthy cur
    · rw [if_pos hs] at h
      exact absurd h (by simp)
    · rw [if_neg hs] at h
      exact ⟨h, by simp [@count_tokens_of_not_strTruthy cur (by simpa using hs)]⟩
  | cons p ps ih =>
    intro chunks cur h
    by_cases hc : count_tokens
        (if strTruthy cur then stripText (cur ++ [[]] ++ p) else p) ≤ mx
    · rw [soGo_cons_le hc] at h
      have := ih chunks _ h
      rw [soGo_cand_count] at this
      refine ⟨this.1, ?_⟩
      simp only [List.map_cons, List.sum_cons]
      omega
    · exfalso
      have h1 : (if strTruthy cur then chunks ++ [cur] else chunks) ≠ [] ∨
          (chunks = [] ∧ strTruthy cur = false) := by
        by_cases hs : strTruthy cur
        · exact Or.inl (by rw [if_pos hs]; simp)
        · cases hchn : chunks with
          | nil => exact Or.inr ⟨rfl, by simpa using hs⟩
          | cons a l => exact Or.inl (by rw [if_neg hs]; simp [hchn])
      by_cases hp : mx < count_tokens p
      · rw [soGo_cons_big hc hp] at h
        refine soGo_chunks_ne ps _ cur ?_ h
        intro hcontra
        rw [List.append_eq_nil] at hcontra
        exact split_by_sentences_ne_nil p mx hcontra.2
      · rcases h1 with h1 | ⟨hchn, hs⟩
        · rw [soGo_cons_small hc hp] at h
          exact soGo_chunks_ne ps _ p h1 h
        · rw [if_neg (by simp [hs])] at hc
          exact hc (Nat.le_of_not_lt hp)

/-- Unfolding equations for the paragraph scanner. -/
theorem spGo_any_nil (eating : Bool) (cur : DocText) :
    spGo eating cur [] = [cur.reverse] := by
  cases eating <;> rfl

theorem spGo_true_cons_eat {cur : DocText} {l : Line} {rest : DocText}
    (h : (lineBlank l && !rest.isEmpty) = true) :
    spGo true cur (l :: rest) = spGo true cur rest := by
  simp only [spGo]
  rw [if_pos h]

theorem spGo_true_cons_stop {cur : DocText} {l : Line} {rest : DocText}
    (h : (lineBlank l && !rest.isEmpty) = false) :
    spGo true cur (l :: rest) = spGo false [l] rest := by
  simp only [spGo]
  rw [h]
  simp

theorem spGo_false_cons_sep {cur : DocText} {l : Line} {rest : DocText}
    (h : (lineBlank l && !cur.isEmpty && !rest.isEmpty) = true) :
    spGo false cur (l :: rest) = cur.reverse :: spGo true [] rest := by
  simp only [spGo]
  rw [if_pos h]

theorem spGo_false_cons_acc {cur : DocText} {l : Line} {rest : DocText}
    (h : (lineBlank l && !cur.isEmpty && !rest.isEmpty) = false) :
    spGo false cur (l :: rest) = spGo false (l :: cur) rest := by
  simp only [spGo]
  rw [h]
  simp

/-- Paragraph splitting preserves the total word count (the consumed
separator lines are blank). -/
theorem spGo_sum (t : DocText) :
    (∀ cur, ((spGo false cur t).map count_tokens).sum =
      count_tokens cur + count_tokens t) ∧
    ((spGo true [] t).map count_tokens).sum = count_tokens t := by
  induction t with
  | nil =>
    constructor
    · intro cur
      rw [spGo_any_nil]
      simp only [List.map_cons, List.map_nil, List.sum_cons, List.sum_nil,
        count_tokens_reverse]
      simp [count_tokens]
    · rw [spGo_any_nil]
      simp [count_tokens]
  | cons l rest ih =>
    constructor
    · intro cur
      cases h : (lineBlank l && !cur.isEmpty && !rest.isEmpty) with
      | true =>
        have hl : l = [] := by
          cases l with
          | nil => rfl
          | cons w ws => simp [lineBlank] at h
        rw [spGo_false_cons_sep h]
        simp only [List.map_cons, List.sum_cons]
        rw [ih.2, count_tokens_reverse]
        subst hl
        simp [count_tokens_cons]
      | false =>
        rw [spGo_false_cons_acc h, ih.1 (l :: cur)]
        simp only [count_tokens_cons]
        omega
    · cases h : (lineBlank l && !rest.isEmpty) with
      | true =>
        have hl : l = [] := by
          cases l with
          | nil => rfl
          | cons w ws => simp [lineBlank] at h
        rw [spGo_true_cons_eat h, ih.2]
        subst hl
        simp [count_tokens_cons]
      | false =>
        rw [spGo_true_cons_stop h, ih.1 [l]]
        simp [count_tokens_cons, count_tokens]

theorem sum_count_splitParagraphs (t : DocText) :
    ((splitParagraphs t).map count_tokens).sum = count_tokens t := by
  unfold splitParagraphs
  simpa [count_tokens] using (spGo_sum t).1 []

theorem split_oversized_bound {t : DocText} (ht : 2000 < count_tokens t) :
    ∀ c ∈ split_oversized t 2000, count_tokens c ≤ 2000 := by
  intro c hc
  unfold split_oversized at hc
  by_cases hp : 1 < (splitParagraphs t).length
  · rw [if_pos hp] at hc
    by_cases hnil : soGo 2000 [] [] (splitParagraphs t) = []
    · exfalso
      have := (soGo_eq_nil _ _ _ hnil).2
      rw [sum_count_splitParagraphs] at this
      rw [show count_tokens ([] : DocText) = 0 from rfl] at this
      omega
    · rw [if_neg (by simpa using hnil)] at hc
      exact soGo_bound (by omega) _ [] [] (by simp) (by simp [count_tokens]) c hc
  · rw [if_neg hp] at hc
    exact split_by_sentences_bound (by omega) ht c hc

/-- C5: every fragment in the output of the R2 size rule has an estimated
token count of at most the configured maximum of 2000. -/
theorem r2_size_ceiling (chunks : List DocText) (c : DocText)
    (hc : c ∈ apply_rule_r2_size_targets chunks) :
    count_tokens c ≤ 2000 := by
  unfold apply_rule_r2_size_targets at hc
  rw [List.mem_flatten] at hc
  obtain ⟨l, hl, hcl⟩ := hc
  rw [List.mem_map] at hl
  obtain ⟨x, _, rfl⟩ := hl
  by_cases h : count_tokens x ≤ 2000
  · rw [if_pos h] at hcl
    have : c = x := by simpa using hcl
    subst this
    exact h
  · rw [if_neg h] at hcl
    exact split_oversized_bound (by omega) c hcl

/-- Witness for C5 at a concrete input: the single surviving chunk of a
one-word fragment is within the ceiling. -/
theorem r2_size_ceiling_witness : count_tokens [["a"]] ≤ 2000 :=
  r2_size_ceiling [[["a"]]] [["a"]] (by decide)

/-!  Claim C7.  The fueled embedding of `merge_small_across_entries`
(inner loop fueled by the list length, outer loop stopping on a
length-stable pass or after 10 passes) is shown equal to ten iterations of
the specification-side single pass, whose equations state exactly the
claim's merge condition. -/

theorem mergePassSpec_nil (mn mx : Nat) : mergePassSpec mn mx [] = [] := by
  simp [mergePassSpec]

theorem mergePassSpec_single (mn mx : Nat) (c : Chunk) :
    mergePassSpec mn mx [c] = [c] := by
  simp [mergePassSpec]

theorem mergePassSpec_cons_merge {mn mx : Nat} {c d : Chunk} {rest : List Chunk}
    (h : mergeCond mn mx c d = true) :
    mergePassSpec mn mx (c :: d :: rest) =
      mergePassSpec mn mx (mergedChunk c d :: rest) := by
  rw [mergePassSpec]
  rw [if_pos h]

theorem mergePassSpec_cons_keep {mn mx : Nat} {c d : Chunk} {rest : List Chunk}
    (h : mergeCond mn mx c d = false) :
    mergePassSpec mn mx (c :: d :: rest) =
      c :: mergePassSpec mn mx (d :: rest) := by
  rw [mergePassSpec]
  rw [if_neg (by simp [h])]

theorem mergePassGo_eq_spec (mn mx : Nat) :
    ∀ (fuel : Nat) (cs : List Chunk), cs.length ≤ fuel →
      mergePassGo mn mx fuel cs = mergePassSpec mn mx cs := by
  intro fuel
  induction fuel with
  | zero =>
    intro cs hcs
    have : cs = [] := List.length_eq_zero.mp (Nat.le_zero.mp hcs)
    subst this
    rw [mergePassSpec_nil]
    rfl
  | succ fuel ih =>
    intro cs hcs
    match cs with
    | [] => rw [mergePassSpec_nil]; rfl
    | [c] => rw [mergePassSpec_single]; rfl
    | c :: d :: rest =>
      by_cases h : mergeCond mn mx c d = true
      · show mergePassGo mn mx (fuel + 1) (c :: d :: rest) = _
        unfold mergePassGo
        rw [if_pos h, mergePassSpec_cons_merge h]
        exact ih (mergedChunk c d :: rest) (by simpa using Nat.le_of_succ_le_succ hcs)
      · have hf : mergeCond mn mx c d = false := by simpa using h
        show mergePassGo mn mx (fuel + 1) (c :: d :: rest) = _
        unfold mergePassGo
        rw [if_neg (by simp [hf]), mergePassSpec_cons_keep hf]
        rw [ih (d :: rest) (by simpa using Nat.le_of_succ_le_succ hcs)]

theorem mergePass_eq_spec (mn mx : Nat) (cs : List Chunk) :
    mergePass mn mx cs = mergePassSpec mn mx cs :=
  mergePassGo_eq_spec mn mx cs.length cs le_rfl

theorem mergePassGo_length_le (mn mx : Nat) :
    ∀ (fuel : Nat) (cs : List Chunk),
      (mergePassGo mn mx fuel cs).length ≤ cs.length := by
  intro fuel
  induction fuel with
  | zero => intro cs; exact le_rfl
  | succ fuel ih =>
    intro cs
    match cs with
    | [] => exact le_rfl
    | [c] => exact le_rfl
    | c :: d :: rest =>
      by_cases h : mergeCond mn mx c d = true
      · show (mergePassGo mn mx (fuel + 1) (c :: d :: rest)).length ≤ _
        unfold mergePassGo
        rw [if_pos h]
        have := ih (mergedChunk c d :: rest)
        simp only [List.length_cons] at this ⊢
        omega
      · show (mergePassGo mn mx (fuel + 1) (c :: d :: rest)).length ≤ _
        unfold mergePassGo
        rw [if_neg (by simp [show mergeCond mn mx c d = false by simpa using h])]
        have := ih (d :: rest)
        simp only [List.length_cons] at this ⊢
        omega

theorem mergePassGo_length_stable (mn mx : Nat) :
    ∀ (fuel : Nat) (cs : List Chunk), cs.length ≤ fuel →
      (mergePassGo mn mx fuel cs).length = cs.length →
      mergePassGo mn mx fuel cs = cs := by
  intro fuel
  induction fuel with
  | zero => intro cs _ _; rfl
  | succ fuel ih =>
    intro cs hcs hlen
    match cs with
    | [] => rfl
    | [c] => rfl
    | c :: d :: rest =>
      by_cases h : mergeCond mn mx c d = true
      · exfalso
        revert hlen
        show (mergePassGo mn mx (fuel + 1) (c :: d :: rest)).length =
          (c :: d :: rest).length → False
        unfold mergePassGo
        rw [if_pos h]
        have := mergePassGo_length_le mn mx fuel (mergedChunk c d :: rest)
        simp only [List.length_cons] at this ⊢
        omega
      · have hf : mergeCond mn mx c d = false := by simpa using h
        revert hlen
        show (mergePassGo mn mx (fuel + 1) (c :: d :: rest)).length =
          (c :: d :: rest).length →
          mergePassGo mn mx (fuel + 1) (c :: d :: rest) = c :: d :: rest
        unfold mergePassGo
        rw [if_neg (by simp [hf])]
        intro hlen
        have hlen2 : (mergePassGo mn mx fuel (d :: rest)).length = (d :: rest).length := by
          simp only [List.length_cons] at hlen ⊢
          omega
        rw [ih (d :: rest) (by simpa using Nat.le_of_succ_le_succ hcs) hlen2]

theorem mergeLoop_eq_iterate (mn mx : Nat) :
    ∀ (f : Nat) (cs : List Chunk),
      mergeLoop mn mx f cs = (mergePassSpec mn mx)^[f] cs := by
  intro f
  induction f with
  | zero => intro cs; rfl
  | succ f ih =>
    intro cs
    show (let m := mergePass mn mx cs;
      if m.length = cs.length then m else mergeLoop mn mx f m) = _
    rw [Function.iterate_succ_apply]
    by_cases h : (mergePass mn mx cs).length = cs.length
    · rw [if_pos h]
      have hfix : mergePass mn mx cs = cs :=
        mergePassGo_length_stable mn mx cs.length cs le_rfl h
      have hfix' : mergePassSpec mn mx cs = cs := by
        rw [← mergePass_eq_spec]
        exact hfix
      rw [hfix', Function.iterate_fixed hfix', hfix]
    · rw [if_neg h, ih (mergePass mn mx cs), mergePass_eq_spec]

/-- C7: `merge_small_across_entries` equals ten iterations of the single
merge pass (so it stops exactly when a pass merges nothing, and never runs
more than 10 passes), and the single pass merges a below-minimum chunk into
its successor exactly when both share the level-1 id segment of their chunk
identifiers and the combined text stays within the maximum — the merged
chunk keeping the successor's identity and metadata — while every other
chunk is emitted unchanged, in order. -/
theorem merge_small_across_entries_spec (chunks : List Chunk) :
    merge_small_across_entries chunks = (mergePassSpec 200 2000)^[10] chunks ∧
    (∀ c d rest, mergePassSpec 200 2000 (c :: d :: rest) =
      if count_tokens c.text < 200 ∧
          extract_level1_id c = extract_level1_id d ∧
          count_tokens (c.text ++ [[]] ++ d.text) ≤ 2000 then
        mergePassSpec 200 2000 (mergedChunk c d :: rest)
      else c :: mergePassSpec 200 2000 (d :: rest)) ∧
    mergePassSpec 200 2000 ([] : List Chunk) = [] ∧
    (∀ c, mergePassSpec 200 2000 [c] = [c]) := by
  refine ⟨?_, ?_, mergePassSpec_nil 200 2000, mergePassSpec_single 200 2000⟩
  · unfold merge_small_across_entries
    by_cases h : chunks.isEmpty
    · rw [if_pos h]
      have hnil : chunks = [] := by simpa using h
      subst hnil
      rw [Function.iterate_fixed (mergePassSpec_nil 200 2000)]
    · rw [if_neg h]
      exact mergeLoop_eq_iterate 200 2000 10 chunks
  · intro c d rest
    by_cases h : count_tokens c.text < 200 ∧
        extract_level1_id c = extract_level1_id d ∧
        count_tokens (c.text ++ [[]] ++ d.text) ≤ 2000
    · rw [if_pos h]
      refine mergePassSpec_cons_merge ?_
      have h3 : count_tokens (c.text ++ [] :: d.text) ≤ 2000 := by simpa using h.2.2
      simp [mergeCond, h.1, h.2.1, h3]
    · rw [if_neg h]
      refine mergePassSpec_cons_keep ?_
      cases hb : mergeCond 200 2000 c d
      · rfl
      · exfalso
        apply h
        simp only [mergeCond, Bool.and_eq_true, decide_eq_true_eq] at hb
        exact ⟨hb.1.1, hb.1.2, by simpa using hb.2⟩

/-!  Claim C1.  The disambiguation of `detect_boundaries` picks the first
listed match deeper than the open level, else the first listed match; for a
profile whose hierarchy is sorted by level (the data-model invariant:
levels 1..N in order), "first listed" is "shallowest". -/

/-- The head of a filtered list is a minimal satisfying element when the
list is strictly sorted by level. -/
theorem filter_head_min {p : LineMatch → Bool} :
    ∀ {ms : List LineMatch}, ms.Pairwise (fun a b => a.level < b.level) →
      ∀ {d : LineMatch} {ds : List LineMatch}, ms.filter p = d :: ds →
      d ∈ ms ∧ p d = true ∧ ∀ m ∈ ms, p m = true → d.level ≤ m.level := by
  intro ms
  induction ms with
  | nil =>
    intro _ d ds hd
    simp at hd
  | cons m rest ih =>
    intro hp d ds hd
    by_cases hpm : p m = true
    · rw [List.filter_cons_of_pos hpm] at hd
      have hdm : d = m := by
        injection hd with h1 h2
        exact h1.symm
      subst hdm
      refine ⟨by simp, hpm, ?_⟩
      intro x hx _
      rcases List.mem_cons.mp hx with rfl | hx
      · exact le_rfl
      · exact Nat.le_of_lt ((List.pairwise_cons.mp hp).1 x hx)
    · rw [List.filter_cons_of_neg hpm] at hd
      obtain ⟨hdm, hpd, hmin⟩ := ih (List.pairwise_cons.mp hp).2 hd
      refine ⟨List.mem_cons_of_mem _ hdm, hpd, ?_⟩
      intro x hx hpx
      rcases List.mem_cons.mp hx with rfl | hx
      · exact absurd hpx hpm
      · exact hmin x hx hpx

/-- Unfolding equation of chooseMatch on two or more matches. -/
theorem chooseMatch_cons_cons (cur : Nat) (m m' : LineMatch)
    (rest : List LineMatch) :
    chooseMatch cur (m :: m' :: rest) =
      match (m :: m' :: rest).filter (fun x => cur < x.level) with
      | [] => some m
      | d :: _ => some d := rfl

/-- C1: on a line matching more than one hierarchy level of a level-sorted
profile, detect_boundaries chooses the shallowest matching level strictly
deeper than the currently-open level, or the shallowest matching level
overall when none is deeper (the same rule holds trivially for a single
match); after every emitted boundary the open level becomes the chosen
level's number, and the scan starts from open level 0. -/
theorem detect_boundaries_disambiguation (cur : Nat) (ms : List LineMatch)
    (hne : ms ≠ []) (hsorted : ms.Pairwise (fun a b => a.level < b.level)) :
    (∃ c, chooseMatch cur ms = some c ∧ c ∈ ms ∧
      ((∃ m ∈ ms, cur < m.level) →
        cur < c.level ∧ ∀ m ∈ ms, cur < m.level → c.level ≤ m.level) ∧
      ((∀ m ∈ ms, m.level ≤ cur) → ∀ m ∈ ms, c.level ≤ m.level)) ∧
    (∀ (levels : List HierarchyLevel) (pageIdx lineNo : Nat)
        (st : Nat × List Boundary) (l : Line) (c : LineMatch),
      lineBlank l = false → chooseMatch st.1 (lineMatches levels l) = some c →
      scanLineStep levels pageIdx lineNo st l =
        (c.level, st.2 ++ [⟨c.level, c.name, c.bid, c.btitle, pageIdx, lineNo⟩])) ∧
    (∀ (pages : List DocText) (profile : ManualProfile),
      detect_boundaries pages profile =
        sortByB boundaryLE (scanPages profile.hierarchy 0 0 (0, []) pages).2) := by
  refine ⟨?_, ?_, fun _ _ => rfl⟩
  · rcases ms with _ | ⟨m, ms'⟩
    · exact absurd rfl hne
    rcases ms' with _ | ⟨m', rest⟩
    · refine ⟨m, rfl, by simp, ?_, ?_⟩
      · rintro ⟨x, hx, hcur⟩
        have hxm : x = m := by simpa using hx
        refine ⟨hxm ▸ hcur, ?_⟩
        intro y hy _
        have hym : y = m := by simpa using hy
        rw [hym]
      · intro _ y hy
        have hym : y = m := by simpa using hy
        rw [hym]
    · cases hf : (m :: m' :: rest).filter (fun x => cur < x.level) with
      | nil =>
        have hnone : ∀ x ∈ m :: m' :: rest, ¬ cur < x.level := by
          intro x hx
          have := List.filter_eq_nil_iff.mp hf x hx
          simpa using this
        refine ⟨m, ?_, by simp, ?_, ?_⟩
        · rw [chooseMatch_cons_cons, hf]
        · rintro ⟨x, hx, hcur⟩
          exact absurd hcur (hnone x hx)
        · intro _ y hy
          rcases List.mem_cons.mp hy with rfl | hy
          · exact le_rfl
          · exact Nat.le_of_lt ((List.pairwise_cons.mp hsorted).1 y hy)
      | cons d ds =>
        obtain ⟨hdm, hpd, hmin⟩ := filter_head_min hsorted hf
        refine ⟨d, ?_, hdm, ?_, ?_⟩
        · rw [chooseMatch_cons_cons, hf]
        · intro _
          refine ⟨by simpa using hpd, ?_⟩
          intro y hy hcy
          exact hmin y hy (by simpa using hcy)
        · intro hall
          exact absurd (hall d hdm) (by simpa using hpd)
  · intro levels pageIdx lineNo st l c hblank hchoose
    unfold scanLineStep
    rw [hblank]
    simp only [Bool.false_eq_true, if_false]
    rw [hchoose]

/-- A level-1 and a level-3 match for the same line. -/
def cxMatch1 : LineMatch := ⟨1, "group", some "7", none⟩

def cxMatch3 : LineMatch := ⟨3, "procedure", some "7", none⟩

/-- Witness for C1: with open level 1 and candidate levels 1 and 3, the
chosen match is the deeper level 3. -/
theorem detect_boundaries_disambiguation_witness :
    chooseMatch 1 [cxMatch1, cxMatch3] = some cxMatch3 := by
  obtain ⟨⟨c, hc, hmem, hdeep, _⟩, _, _⟩ :=
    detect_boundaries_disambiguation 1 [cxMatch1, cxMatch3]
      (by decide) (by decide)
  have hdeep' := hdeep ⟨cxMatch3, by decide, by decide⟩
  rcases List.mem_cons.mp hmem with rfl | hmem2
  · exact absurd hdeep'.1 (by decide)
  · have hc3 : c = cxMatch3 := by simpa using hmem2
    rw [hc3] at hc
    exact hc

/-!  Claim C2.  One step of build_manifest, under the reachable-state
invariant: the tracked ancestors are strictly increasing in level and each
tracked ancestor's recorded entry has exactly the chunk id generated from
the tracked ancestor ids up to its level. -/

theorem orderedInsertB_of_le {le : α → α → Bool} {a b : α} {l : List α}
    (h : le a b = true) : orderedInsertB le a (b :: l) = a :: b :: l := by
  unfold orderedInsertB
  rw [if_pos h]

theorem sortByB_of_pairwise {le : α → α → Bool} :
    ∀ {l : List α}, l.Pairwise (fun a b => le a b = true) → sortByB le l = l := by
  intro l
  induction l with
  | nil => intro _; rfl
  | cons a rest ih =>
    intro hp
    show orderedInsertB le a (sortByB le rest) = a :: rest
    rw [ih (List.pairwise_cons.mp hp).2]
    cases rest with
    | nil => rfl
    | cons b rest2 =>
      exact orderedInsertB_of_le ((List.pairwise_cons.mp hp).1 b (by simp))

theorem getLast?_mem' : ∀ {l : List α} {a : α}, l.getLast? = some a → a ∈ l := by
  intro l
  induction l with
  | nil => intro a h; simp at h
  | cons x rest ih =>
    intro a h
    cases rest with
    | nil =>
      have : x = a := by simpa using h
      simp [this]
    | cons y rest2 =>
      rw [List.getLast?_cons_cons] at h
      exact List.mem_cons_of_mem _ (ih h)

/-- In a strictly level-sorted ancestor list, every element's level is at
most the last element's level. -/
theorem pairwise_le_getLast :
    ∀ {l : List AncEntry} {p : AncEntry},
      l.Pairwise (fun a b => a.level < b.level) → l.getLast? = some p →
      ∀ x ∈ l, x.level ≤ p.level := by
  intro l
  induction l with
  | nil => intro p _ h; simp at h
  | cons a rest ih =>
    intro p hs hl x hx
    cases rest with
    | nil =>
      have hap : a = p := by simpa using hl
      have hxa : x = a := by simpa using hx
      rw [hxa, hap]
    | cons b rest2 =>
      rw [List.getLast?_cons_cons] at hl
      have hpmem : p ∈ b :: rest2 := getLast?_mem' hl
      rcases List.mem_cons.mp hx with rfl | hx2
      · exact Nat.le_of_lt ((List.pairwise_cons.mp hs).1 p hpmem)
      · exact ih (List.pairwise_cons.mp hs).2 hl x hx2

/-- For the last ancestor of a strictly level-sorted list, the parent-path
loop collects every ancestor id. -/
theorem takeUpToLevel_last :
    ∀ {l : List AncEntry} {p : AncEntry},
      l.Pairwise (fun a b => a.level < b.level) → l.getLast? = some p →
      takeUpToLevel p.level l = l.map (·.aid) := by
  intro l
  induction l with
  | nil => intro p _ h; simp at h
  | cons a rest ih =>
    intro p hs hl
    cases rest with
    | nil =>
      have hap : a = p := by simpa using hl
      subst hap
      simp [takeUpToLevel]
    | cons b rest2 =>
      rw [List.getLast?_cons_cons] at hl
      have hpmem : p ∈ b :: rest2 := getLast?_mem' hl
      have hlt : a.level < p.level := (List.pairwise_cons.mp hs).1 p hpmem
      unfold takeUpToLevel
      rw [if_neg (by omega)]
      rw [ih (List.pairwise_cons.mp hs).2 hl]
      rfl

/-- Appending a child id never changes any entry's chunk id or parent id. -/
theorem addChildToFirst_map (pid ch : String) :
    ∀ (l : List ManifestEntry),
      (addChildToFirst pid ch l).map (fun e => (e.chunk_id, e.parent_chunk_id)) =
        l.map (fun e => (e.chunk_id, e.parent_chunk_id)) := by
  intro l
  induction l with
  | nil => rfl
  | cons e rest ih =>
    by_cases h : e.chunk_id = pid
    · unfold addChildToFirst
      rw [if_pos h]
      simp
    · unfold addChildToFirst
      rw [if_neg h]
      simpa using ih

/-- The reachable-state invariant of build_manifest's fold. -/
@[reducible]
def ancInv (manualId : String) (anc : List AncEntry)
    (entries : List ManifestEntry) : Prop :=
  anc.Pairwise (fun a b => a.level < b.level) ∧
  ∀ a ∈ anc, a.idx < entries.length ∧
    (entries.getD a.idx default).chunk_id =
      generate_chunk_id manualId
        ((anc.filter (fun x => x.level ≤ a.level)).map (·.aid))

/-- C2: one build_manifest step closes every tracked ancestor at level ≥ L
and registers the boundary as the open ancestor at L; the emitted entry's
chunk id joins the document id, the surviving ancestors' ids in increasing
level order, and the boundary's own id (title when the id is absent); its
parent id is the chunk id of the entry of the nearest surviving ancestor
(the tracked one with the greatest level below L), or none when no ancestor
survives. -/
theorem build_manifest_step_spec (manualId : String) (vnames : List String)
    (anc : List AncEntry) (entries : List ManifestEntry) (b : Boundary)
    (hinv : ancInv manualId anc entries) :
    (manifestStep manualId vnames (anc, entries) b).1 =
      anc.filter (fun a => a.level < b.level) ++
        [⟨b.level, b.id.getD (orStr b.title ""), orStr b.title (orStr b.id ""),
          entries.length⟩] ∧
    ((manifestStep manualId vnames (anc, entries) b).2.getLast?.map fun e =>
        (e.chunk_id, e.parent_chunk_id)) =
      some (generate_chunk_id manualId
              ((anc.filter (fun a => a.level < b.level)).map (·.aid) ++
                [b.id.getD (orStr b.title "")]),
            ((anc.filter (fun a => a.level < b.level)).getLast?.map fun p =>
              (entries.getD p.idx default).chunk_id)) := by
  have hsF : (anc.filter (fun a => a.level < b.level)).Pairwise
      (fun x y => x.level < y.level) :=
    List.Pairwise.sublist (List.filter_sublist _) hinv.1
  have hsort : sortAnc (anc.filter (fun a => a.level < b.level)) =
      anc.filter (fun a => a.level < b.level) := by
    unfold sortAnc
    exact sortByB_of_pairwise (hsF.imp fun h => decide_eq_true (Nat.le_of_lt h))
  refine ⟨rfl, ?_⟩
  cases hlast : (anc.filter (fun a => a.level < b.level)).getLast? with
  | none =>
    simp only [manifestStep, hsort, hlast]
    rw [List.getLast?_concat]
    rfl
  | some p =>
    have hpF : p ∈ anc.filter (fun a => a.level < b.level) := getLast?_mem' hlast
    have hpanc : p ∈ anc := (List.mem_filter.mp hpF).1
    have hplt : p.level < b.level := by
      have := (List.mem_filter.mp hpF).2
      simpa using this
    have hfeq : anc.filter (fun x => x.level ≤ p.level) =
        anc.filter (fun a => a.level < b.level) := by
      apply List.filter_congr
      intro x hx
      refine decide_eq_decide.mpr ⟨fun hle => ?_, fun hlt => ?_⟩
      · omega
      · exact pairwise_le_getLast hsF hlast x
          (List.mem_filter.mpr ⟨hx, decide_eq_true hlt⟩)
    have hpid : generate_chunk_id manualId
        (takeUpToLevel p.level (anc.filter (fun a => a.level < b.level))) =
        (entries.getD p.idx default).chunk_id := by
      rw [takeUpToLevel_last hsF hlast, ← hfeq]
      exact ((hinv.2 p hpanc).2).symm
    simp only [manifestStep, hsort, hlast]
    rw [hpid, ← List.getLast?_map, addChildToFirst_map, List.getLast?_map,
      List.getLast?_concat]
    rfl

/-- A manifest state with one tracked level-1 ancestor whose entry is
already in the manifest (chunk id "m::7"). -/
def cxEntry7 : ManifestEntry :=
  { (default : ManifestEntry) with chunk_id := "m::7" }

def cxAnc0 : List AncEntry := [⟨1, "7", "Cooling", 0⟩]

def cxEntries0 : List ManifestEntry := [cxEntry7]

def cxBndL2 : Boundary := ⟨2, "section", some "12", some "Radiator", 3, 40⟩

theorem build_manifest_step_spec_witness :
    ancInv "m" cxAnc0 cxEntries0 ∧
    ((manifestStep "m" [] (cxAnc0, cxEntries0) cxBndL2).1 =
        cxAnc0.filter (fun a => a.level < cxBndL2.level) ++
          [⟨cxBndL2.level, cxBndL2.id.getD (orStr cxBndL2.title ""),
            orStr cxBndL2.title (orStr cxBndL2.id ""), cxEntries0.length⟩] ∧
      ((manifestStep "m" [] (cxAnc0, cxEntries0) cxBndL2).2.getLast?.map fun e =>
          (e.chunk_id, e.parent_chunk_id)) =
        some (generate_chunk_id "m"
                ((cxAnc0.filter (fun a => a.level < cxBndL2.level)).map (·.aid) ++
                  [cxBndL2.id.getD (orStr cxBndL2.title "")]),
              ((cxAnc0.filter (fun a => a.level < cxBndL2.level)).getLast?.map
                fun p => (cxEntries0.getD p.idx default).chunk_id))) :=
  ⟨by decide, build_manifest_step_spec "m" [] cxAnc0 cxEntries0 cxBndL2 (by decide)⟩

/-!  Claim C9.  Idempotence of filter_boundaries.  Passes 0 and 1 are
pointwise filters and pass 2 is stable on any of its own outputs (same-level
gaps telescope), but pass 3 measures each span to the next boundary of the
sequence being traversed, so its stability needs the input to be sorted by
line number — which detect_boundaries guarantees, but an adversarial
unsorted sequence violates (see the counterexample). -/

theorem spanWords_append (a b : List Line) :
    spanWords (a ++ b) = spanWords a + spanWords b := by
  unfold spanWords
  rw [List.map_append, List.sum_append]

theorem spanWords_take_le (t : List Line) (k : Nat) :
    spanWords (t.take k) ≤ spanWords t := by
  conv_rhs => rw [← List.take_append_drop k t]
  rw [spanWords_append]
  omega

theorem spanWords_slice_mono (l : List Line) (s : Nat) {e f : Nat} (h : e ≤ f) :
    spanWords (slice l s e) ≤ spanWords (slice l s f) := by
  unfold slice
  have ht : (l.drop s).take (e - s) = ((l.drop s).take (f - s)).take (e - s) := by
    rw [List.take_take, Nat.min_eq_left (Nat.sub_le_sub_right h s)]
  rw [ht]
  exact spanWords_take_le _ _

theorem spanWords_slice_cap (l : List Line) (s e t : Nat) (h : l.length ≤ t) :
    spanWords (slice l s e) ≤ spanWords (slice l s t) := by
  unfold slice
  have hlen : (l.drop s).length ≤ t - s := by
    rw [List.length_drop]
    omega
  rw [List.take_of_length_le hlen]
  exact spanWords_take_le _ _

/-- The pass-3 keep-predicate is monotone in the span end line. -/
theorem pass3Keep_mono (profile : ManualProfile) (allLines : List Line)
    (b : Boundary) {e f : Nat} (h : e ≤ f)
    (hk : pass3Keep profile allLines b e = true) :
    pass3Keep profile allLines b f = true := by
  unfold pass3Keep at hk ⊢
  by_cases hg : hasMinWordsLevel profile b.level = true
  · rw [if_pos hg] at hk ⊢
    exact decide_eq_true
      (le_trans (of_decide_eq_true hk) (spanWords_slice_mono allLines b.line_number h))
  · rw [if_neg hg]

/-- A span end at or beyond the document length yields the largest span. -/
theorem pass3Keep_cap (profile : ManualProfile) (allLines : List Line)
    (b : Boundary) (e t : Nat) (ht : allLines.length ≤ t)
    (hk : pass3Keep profile allLines b e = true) :
    pass3Keep profile allLines b t = true := by
  unfold pass3Keep at hk ⊢
  by_cases hg : hasMinWordsLevel profile b.level = true
  · rw [if_pos hg] at hk ⊢
    exact decide_eq_true
      (le_trans (of_decide_eq_true hk) (spanWords_slice_cap allLines b.line_number e t ht))
  · rw [if_neg hg]

theorem pass2Go_nil (profile : ManualProfile) (st : Nat → Option Nat) :
    pass2Go profile st [] = [] := rfl

theorem pass2Go_cons (profile : ManualProfile) (st : Nat → Option Nat)
    (b : Boundary) (rest : List Boundary) :
    pass2Go profile st (b :: rest) =
      if hasGapLevel profile b.level then
        match st b.level with
        | some last =>
          if (b.line_number : Int) - (last : Int) <
              (gapThreshold profile b.level : Int) then
            pass2Go profile st rest
          else
            b :: pass2Go profile
              (fun l => if l = b.level then some b.line_number else st l) rest
        | none =>
          b :: pass2Go profile
            (fun l => if l = b.level then some b.line_number else st l) rest
      else
        b :: pass2Go profile st rest := rfl

theorem pass3Go_nil (profile : ManualProfile) (allLines : List Line)
    (total : Nat) : pass3Go profile allLines total [] = [] := rfl

theorem pass3Go_cons (profile : ManualProfile) (allLines : List Line)
    (total : Nat) (b : Boundary) (rest : List Boundary) :
    pass3Go profile allLines total (b :: rest) =
      if pass3Keep profile allLines b
          (match rest.head? with
           | some nb => nb.line_number
           | none => total) then
        b :: pass3Go profile allLines total rest
      else
        pass3Go profile allLines total rest := rfl

theorem pass2Go_sublist (profile : ManualProfile) :
    ∀ (xs : List Boundary) (st : Nat → Option Nat),
      List.Sublist (pass2Go profile st xs) xs := by
  intro xs
  induction xs with
  | nil =>
    intro st
    rw [pass2Go_nil]
  | cons b rest ih =>
    intro st
    rw [pass2Go_cons]
    by_cases hg : hasGapLevel profile b.level = true
    · rw [if_pos hg]
      cases hst : st b.level with
      | none => exact List.Sublist.cons₂ b (ih _)
      | some last =>
        show List.Sublist
          (if (b.line_number : Int) - (last : Int) <
              (gapThreshold profile b.level : Int) then
            pass2Go profile st rest
          else
            b :: pass2Go profile
              (fun l => if l = b.level then some b.line_number else st l) rest)
          (b :: rest)
        by_cases hlt : (b.line_number : Int) - (last : Int) <
            (gapThreshold profile b.level : Int)
        · rw [if_pos hlt]
          exact List.Sublist.cons b (ih st)
        · rw [if_neg hlt]
          exact List.Sublist.cons₂ b (ih _)
    · rw [if_neg hg]
      exact List.Sublist.cons₂ b (ih st)

theorem pass3Go_sublist (profile : ManualProfile) (allLines : List Line)
    (total : Nat) : ∀ xs : List Boundary,
      List.Sublist (pass3Go profile allLines total xs) xs := by
  intro xs
  induction xs with
  | nil => rw [pass3Go_nil]
  | cons b rest ih =>
    rw [pass3Go_cons]
    by_cases hk : pass3Keep profile allLines b
        (match rest.head? with
         | some nb => nb.line_number
         | none => total) = true
    · rw [if_pos hk]
      exact List.Sublist.cons₂ b ih
    · rw [if_neg hk]
      exact List.Sublist.cons b ih

/-- Two boundaries are gap-compatible when, at a shared gap-filtered level,
the second lies at least the configured gap after the first. -/
def gapOK (profile : ManualProfile) (a c : Boundary) : Prop :=
  a.level = c.level → hasGapLevel profile a.level = true →
    (gapThreshold profile a.level : Int) ≤
      (c.line_number : Int) - (a.line_number : Int)

/-- Every boundary of the list respects the gap recorded in the state for
its level. -/
def stGap (profile : ManualProfile) (st : Nat → Option Nat)
    (xs : List Boundary) : Prop :=
  ∀ ℓ l, st ℓ = some l → ∀ b ∈ xs, b.level = ℓ →
    hasGapLevel profile ℓ = true →
      (gapThreshold profile ℓ : Int) ≤ (b.line_number : Int) - (l : Int)

/-- The pass-2 loop's output is gap-compatible pairwise and respects the
incoming state: consecutive same-level gaps telescope, so this needs no
hypothesis at all. -/
theorem pass2Go_strong (profile : ManualProfile) :
    ∀ (xs : List Boundary) (st : Nat → Option Nat),
      (pass2Go profile st xs).Pairwise (gapOK profile) ∧
      stGap profile st (pass2Go profile st xs) := by
  intro xs
  induction xs with
  | nil =>
    intro st
    rw [pass2Go_nil]
    exact ⟨List.Pairwise.nil, fun ℓ l _ b hb => absurd hb (List.not_mem_nil b)⟩
  | cons b rest ih =>
    intro st
    rw [pass2Go_cons]
    by_cases hg : hasGapLevel profile b.level = true
    · rw [if_pos hg]
      cases hst : st b.level with
      | none =>
        obtain ⟨hO, hresp⟩ :=
          ih (fun l => if l = b.level then some b.line_number else st l)
        constructor
        · refine List.pairwise_cons.mpr ⟨?_, hO⟩
          intro x hx hlev hgap
          have hself : (fun l => if l = b.level then some b.line_number else st l)
              b.level = some b.line_number := by
            simp
          exact hresp b.level b.line_number hself x hx hlev.symm (hlev ▸ hgap)
        · intro ℓ l hl x hx hxlev hxgap
          rcases List.mem_cons.mp hx with rfl | hxO
          · rw [← hxlev] at hl
            rw [hst] at hl
            exact absurd hl (by simp)
          · by_cases hℓ : ℓ = b.level
            · rw [hℓ] at hl
              rw [hst] at hl
              exact absurd hl (by simp)
            · have hl' : (fun l => if l = b.level then some b.line_number else st l)
                  ℓ = some l := by
                show (if ℓ = b.level then some b.line_number else st ℓ) = some l
                rw [if_neg hℓ]
                exact hl
              exact hresp ℓ l hl' x hxO hxlev hxgap
      | some last =>
        show (if (b.line_number : Int) - (last : Int) <
              (gapThreshold profile b.level : Int) then
            pass2Go profile st rest
          else
            b :: pass2Go profile
              (fun l => if l = b.level then some b.line_number else st l)
              rest).Pairwise (gapOK profile) ∧
          stGap profile st
            (if (b.line_number : Int) - (last : Int) <
                (gapThreshold profile b.level : Int) then
              pass2Go profile st rest
            else
              b :: pass2Go profile
                (fun l => if l = b.level then some b.line_number else st l) rest)
        by_cases hlt : (b.line_number : Int) - (last : Int) <
            (gapThreshold profile b.level : Int)
        · rw [if_pos hlt]
          exact ih st
        · rw [if_neg hlt]
          obtain ⟨hO, hresp⟩ :=
            ih (fun l => if l = b.level then some b.line_number else st l)
          constructor
          · refine List.pairwise_cons.mpr ⟨?_, hO⟩
            intro x hx hlev hgap
            have hself : (fun l => if l = b.level then some b.line_number else st l)
                b.level = some b.line_number := by
              simp
            exact hresp b.level b.line_number hself x hx hlev.symm (hlev ▸ hgap)
          · intro ℓ l hl x hx hxlev hxgap
            rcases List.mem_cons.mp hx with rfl | hxO
            · rw [← hxlev] at hl
              rw [hst] at hl
              have hlast : last = l := by
                injection hl
              rw [← hxlev, ← hlast]
              omega
            · by_cases hℓ : ℓ = b.level
              · have hxb := hresp b.level b.line_number (by simp) x hxO
                  (hℓ ▸ hxlev) (hℓ ▸ hxgap)
                rw [hℓ] at hl
                rw [hst] at hl
                have hlast : last = l := by
                  injection hl
                rw [hℓ, ← hlast]
                omega
              · have hl' : (fun l => if l = b.level then some b.line_number else st l)
                    ℓ = some l := by
                  show (if ℓ = b.level then some b.line_number else st ℓ) = some l
                  rw [if_neg hℓ]
                  exact hl
                exact hresp ℓ l hl' x hxO hxlev hxgap
    · rw [if_neg hg]
      obtain ⟨hO, hresp⟩ := ih st
      constructor
      · refine List.pairwise_cons.mpr ⟨?_, hO⟩
        intro x hx hlev hgap
        exact absurd hgap hg
      · intro ℓ l hl x hx hxlev hxgap
        rcases List.mem_cons.mp hx with rfl | hxO
        · exact absurd (hxlev ▸ hxgap) hg
        · exact hresp ℓ l hl x hxO hxlev hxgap

/-- The pass-2 loop keeps every boundary of a gap-compatible list that
respects the incoming state. -/
theorem pass2Go_stable (profile : ManualProfile) :
    ∀ (xs : List Boundary) (st : Nat → Option Nat),
      xs.Pairwise (gapOK profile) → stGap profile st xs →
      pass2Go profile st xs = xs := by
  intro xs
  induction xs with
  | nil =>
    intro st _ _
    rw [pass2Go_nil]
  | cons b rest ih =>
    intro st hp hgap
    have hptail : rest.Pairwise (gapOK profile) := (List.pairwise_cons.mp hp).2
    have hhead : ∀ x ∈ rest, gapOK profile b x := (List.pairwise_cons.mp hp).1
    have hgapr : stGap profile st rest :=
      fun ℓ l hl x hx => hgap ℓ l hl x (List.mem_cons_of_mem b hx)
    have hbump : stGap profile
        (fun l => if l = b.level then some b.line_number else st l) rest := by
      intro ℓ l hl x hx hxlev hxg
      have hl' : (if ℓ = b.level then some b.line_number else st ℓ) = some l := hl
      by_cases hℓ : ℓ = b.level
      · rw [if_pos hℓ] at hl'
        have hlb : b.line_number = l := by
          injection hl'
        have := hhead x hx (hℓ ▸ hxlev.symm) (hℓ ▸ hxg)
        rw [← hlb]
        rw [hℓ]
        exact this
      · rw [if_neg hℓ] at hl'
        exact hgapr ℓ l hl' x hx hxlev hxg
    rw [pass2Go_cons]
    by_cases hg : hasGapLevel profile b.level = true
    · rw [if_pos hg]
      cases hst : st b.level with
      | none =>
        rw [ih _ hptail hbump]
      | some last =>
        have hbge : (gapThreshold profile b.level : Int) ≤
            (b.line_number : Int) - (last : Int) :=
          hgap b.level last hst b (List.mem_cons_self b rest) rfl hg
        show (if (b.line_number : Int) - (last : Int) <
              (gapThreshold profile b.level : Int) then
            pass2Go profile st rest
          else
            b :: pass2Go profile
              (fun l => if l = b.level then some b.line_number else st l) rest) =
          b :: rest
        rw [if_neg (by omega)]
        rw [ih _ hptail hbump]
    · rw [if_neg hg]
      rw [ih st hptail hgapr]

/-- The pass-3 loop is idempotent on a line-sorted list: removing later
boundaries only moves each survivor's span end further right (or to the
document end), and the keep-predicate is monotone in the span end. -/
theorem pass3Go_stable (profile : ManualProfile) (allLines : List Line)
    (total : Nat) (htot : allLines.length ≤ total) :
    ∀ xs : List Boundary,
      xs.Pairwise (fun a c => a.line_number ≤ c.line_number) →
      pass3Go profile allLines total (pass3Go profile allLines total xs) =
        pass3Go profile allLines total xs := by
  intro xs
  induction xs with
  | nil =>
    intro _
    rw [pass3Go_nil, pass3Go_nil]
  | cons b rest ih =>
    intro hp
    rw [pass3Go_cons]
    by_cases hk : pass3Keep profile allLines b
        (match rest.head? with
         | some nb => nb.line_number
         | none => total) = true
    · rw [if_pos hk]
      cases rest with
      | nil =>
        rw [pass3Go_nil, pass3Go_cons]
        rw [if_pos hk, pass3Go_nil]
      | cons nb rest2 =>
        have hk2 : pass3Keep profile allLines b nb.line_number = true := hk
        have hptail : (nb :: rest2).Pairwise
            (fun a c => a.line_number ≤ c.line_number) :=
          (List.pairwise_cons.mp hp).2
        cases hO : pass3Go profile allLines total (nb :: rest2) with
        | nil =>
          rw [pass3Go_cons]
          have hkm : pass3Keep profile allLines b
              (match ([] : List Boundary).head? with
               | some nb => nb.line_number
               | none => total) = true :=
            pass3Keep_cap profile allLines b nb.line_number total htot hk2
          rw [if_pos hkm, pass3Go_nil]
        | cons c0 O2 =>
          rw [pass3Go_cons]
          have hc0 : c0 ∈ nb :: rest2 := by
            refine (pass3Go_sublist profile allLines total (nb :: rest2)).subset ?_
            rw [hO]
            exact List.mem_cons_self c0 O2
          have hble : nb.line_number ≤ c0.line_number := by
            rcases List.mem_cons.mp hc0 with rfl | hc2
            · exact Nat.le_refl _
            · exact (List.pairwise_cons.mp hptail).1 c0 hc2
          have hkm : pass3Keep profile allLines b
              (match (c0 :: O2).head? with
               | some nb => nb.line_number
               | none => total) = true :=
            pass3Keep_mono profile allLines b hble hk2
          rw [if_pos hkm]
          rw [← hO, ih hptail]
    · rw [if_neg hk]
      exact ih (List.pairwise_cons.mp hp).2

theorem pass0_sublist (profile : ManualProfile) (bs : List Boundary) :
    List.Sublist (pass0 profile bs) bs := by
  unfold pass0
  by_cases hg : profile.hierarchy.any
      (fun h => h.require_known_id && !h.known_ids.isEmpty) = true
  · rw [if_pos hg]
    exact List.filter_sublist _
  · rw [if_neg hg]

theorem pass1_sublist (profile : ManualProfile) (allLines : List Line)
    (total : Nat) (bs : List Boundary) :
    List.Sublist (pass1 profile allLines total bs) bs := by
  unfold pass1
  exact List.filter_sublist _

theorem pass2_sublist (profile : ManualProfile) (bs : List Boundary) :
    List.Sublist (pass2 profile bs) bs := by
  unfold pass2
  by_cases hg : profile.hierarchy.any (fun h => 0 < h.min_gap_lines) = true
  · rw [if_pos hg]
    exact pass2Go_sublist profile bs _
  · rw [if_neg hg]

theorem pass3_sublist (profile : ManualProfile) (allLines : List Line)
    (total : Nat) (bs : List Boundary) :
    List.Sublist (pass3 profile allLines total bs) bs := by
  unfold pass3
  by_cases hg : profile.hierarchy.any (fun h => 0 < h.min_content_words) = true
  · rw [if_pos hg]
    exact pass3Go_sublist profile allLines total bs
  · rw [if_neg hg]

/-- Pass 0 keeps every boundary that already survived a pass-0 run. -/
theorem pass0_of_mem (profile : ManualProfile) {src Y : List Boundary}
    (hmem : ∀ x ∈ Y, x ∈ pass0 profile src) : pass0 profile Y = Y := by
  unfold pass0
  by_cases hg : profile.hierarchy.any
      (fun h => h.require_known_id && !h.known_ids.isEmpty) = true
  · rw [if_pos hg]
    refine List.filter_eq_self.mpr fun x hx => ?_
    have hxs := hmem x hx
    unfold pass0 at hxs
    rw [if_pos hg] at hxs
    exact List.of_mem_filter hxs
  · rw [if_neg hg]

/-- Pass 1 keeps every boundary that already survived a pass-1 run. -/
theorem pass1_of_mem (profile : ManualProfile) (allLines : List Line)
    (total : Nat) {src Y : List Boundary}
    (hmem : ∀ x ∈ Y, x ∈ pass1 profile allLines total src) :
    pass1 profile allLines total Y = Y := by
  unfold pass1
  refine List.filter_eq_self.mpr fun x hx => ?_
  have hxs := hmem x hx
  unfold pass1 at hxs
  exact List.of_mem_filter hxs

/-- C9 (amended): on an input sorted by line number — as every sequence
produced by detect_boundaries is — filter_boundaries is idempotent:
re-running the four passes on their own output removes no boundary. -/
theorem filter_boundaries_idempotent (bs : List Boundary)
    (profile : ManualProfile) (pages : List DocText)
    (hs : bs.Pairwise (fun a c => a.line_number ≤ c.line_number)) :
    filter_boundaries (filter_boundaries bs profile pages) profile pages =
      filter_boundaries bs profile pages := by
  cases bs with
  | nil => rfl
  | cons b0 bs0 =>
    cases hF : filter_boundaries (b0 :: bs0) profile pages with
    | nil => rfl
    | cons f0 fs =>
      have hexp : ∀ (y : Boundary) (ys : List Boundary),
          filter_boundaries (y :: ys) profile pages =
            pass3 profile (joinPages pages) (joinPages pages).length
              (pass2 profile
                (pass1 profile (joinPages pages) (joinPages pages).length
                  (pass0 profile (y :: ys)))) := fun y ys => rfl
      rw [hexp] at hF
      rw [hexp]
      have hB : List.Sublist
          (pass1 profile (joinPages pages) (joinPages pages).length
            (pass0 profile (b0 :: bs0)))
          (pass0 profile (b0 :: bs0)) :=
        pass1_sublist profile (joinPages pages) (joinPages pages).length _
      have hC : List.Sublist
          (pass2 profile
            (pass1 profile (joinPages pages) (joinPages pages).length
              (pass0 profile (b0 :: bs0))))
          (pass1 profile (joinPages pages) (joinPages pages).length
            (pass0 profile (b0 :: bs0))) :=
        pass2_sublist profile _
      have hD : List.Sublist (f0 :: fs)
          (pass2 profile
            (pass1 profile (joinPages pages) (joinPages pages).length
              (pass0 profile (b0 :: bs0)))) := by
        have := pass3_sublist profile (joinPages pages) (joinPages pages).length
          (pass2 profile
            (pass1 profile (joinPages pages) (joinPages pages).length
              (pass0 profile (b0 :: bs0))))
        rw [hF] at this
        exact this
      have hsC : (pass2 profile
          (pass1 profile (joinPages pages) (joinPages pages).length
            (pass0 profile (b0 :: bs0)))).Pairwise
          (fun a c => a.line_number ≤ c.line_number) :=
        List.Pairwise.sublist
          (hC.trans (hB.trans (pass0_sublist profile (b0 :: bs0)))) hs
      have h0 : pass0 profile (f0 :: fs) = f0 :: fs :=
        pass0_of_mem profile fun x hx =>
          ((hD.trans hC).trans hB).subset hx
      have h1 : pass1 profile (joinPages pages) (joinPages pages).length
          (f0 :: fs) = f0 :: fs :=
        pass1_of_mem profile (joinPages pages) (joinPages pages).length
          fun x hx => (hD.trans hC).subset hx
      have h2 : pass2 profile (f0 :: fs) = f0 :: fs := by
        by_cases hg : profile.hierarchy.any (fun h => 0 < h.min_gap_lines) = true
        · have hCeq : pass2 profile
              (pass1 profile (joinPages pages) (joinPages pages).length
                (pass0 profile (b0 :: bs0))) =
              pass2Go profile (fun _ => none)
                (pass1 profile (joinPages pages) (joinPages pages).length
                  (pass0 profile (b0 :: bs0))) := by
            unfold pass2
            rw [if_pos hg]
          have hPC : (pass2 profile
              (pass1 profile (joinPages pages) (joinPages pages).length
                (pass0 profile (b0 :: bs0)))).Pairwise (gapOK profile) := by
            rw [hCeq]
            exact (pass2Go_strong profile
              (pass1 profile (joinPages pages) (joinPages pages).length
                (pass0 profile (b0 :: bs0))) (fun _ => none)).1
          have hPF : (f0 :: fs).Pairwise (gapOK profile) :=
            List.Pairwise.sublist hD hPC
          unfold pass2
          rw [if_pos hg]
          refine pass2Go_stable profile (f0 :: fs) (fun _ => none) hPF ?_
          intro ℓ l hl
          exact absurd hl (by simp)
        · unfold pass2
          rw [if_neg hg]
      have h3 : pass3 profile (joinPages pages) (joinPages pages).length
          (f0 :: fs) = f0 :: fs := by
        by_cases hg : profile.hierarchy.any
            (fun h => 0 < h.min_content_words) = true
        · have hFeq : pass3 profile (joinPages pages) (joinPages pages).length
              (pass2 profile
                (pass1 profile (joinPages pages) (joinPages pages).length
                  (pass0 profile (b0 :: bs0)))) =
              pass3Go profile (joinPages pages) (joinPages pages).length
                (pass2 profile
                  (pass1 profile (joinPages pages) (joinPages pages).length
                    (pass0 profile (b0 :: bs0)))) := by
            unfold pass3
            rw [if_pos hg]
          unfold pass3
          rw [if_pos hg]
          rw [← hF, hFeq]
          exact pass3Go_stable profile (joinPages pages) (joinPages pages).length
            (Nat.le_refl _) _ hsC
        · unfold pass3
          rw [if_neg hg]
      rw [h0, h1, h2, h3]

/-- Two blank lines then one word per line on lines 2, 3 and 4. -/
def cxPages9 : List DocText := [[[], [], ["w"], ["w"], ["w"]]]

/-- Profile whose single level-1 entry requires three content words. -/
def exMinWords3Profile : ManualProfile :=
  ⟨"m", "Manual", [], [exMinWordsLevel 3], [], none, [], []⟩

def cxUA : Boundary := ⟨1, "group", some "A", none, 0, 0⟩

def cxUB : Boundary := ⟨1, "group", some "B", none, 0, 5⟩

def cxUC : Boundary := ⟨1, "group", some "C", none, 0, 1⟩

/-- C9 (counterexample): on a boundary sequence that is not sorted by line
number, filter_boundaries is not idempotent.  The middle boundary (line 5)
is dropped by pass 3 because its span runs backwards to the out-of-order
final boundary (line 1); on the re-run the first boundary's span now ends at
line 1 and it is dropped too, so the second application removes a further
boundary. -/
theorem filter_boundaries_unsorted_counterexample :
    filter_boundaries [cxUA, cxUB, cxUC] exMinWords3Profile cxPages9 =
      [cxUA, cxUC] ∧
    filter_boundaries
        (filter_boundaries [cxUA, cxUB, cxUC] exMinWords3Profile cxPages9)
        exMinWords3Profile cxPages9 = [cxUC] ∧
    ¬ ([cxUA, cxUB, cxUC].Pairwise
        (fun a c => a.line_number ≤ c.line_number)) := by
  decide

theorem filter_boundaries_idempotent_witness :
    ([cxB1, cxB2].Pairwise (fun a c => a.line_number ≤ c.line_number)) ∧
    filter_boundaries (filter_boundaries [cxB1, cxB2] exMinWordsProfile cxPages)
        exMinWordsProfile cxPages =
      filter_boundaries [cxB1, cxB2] exMinWordsProfile cxPages :=
  ⟨by decide,
    filter_boundaries_idempotent [cxB1, cxB2] exMinWordsProfile cxPages
      (by decide)⟩

end ManualPipeline
